import Mathlib

/-!
Verification development for the Findelix company-profile extraction pipeline.

The Python sources (`core.py`, `app.py`, `providers/contacts.py`,
`providers/executives.py`, `providers/posts.py`, `providers/serper.py`,
`providers/socials.py`) are shallowly embedded below.  Pure Python string
manipulation is modelled on `List Char` / `String` with an ASCII case model;
calls to boundary collaborators (web search, news search, knowledge graph,
HTTP fetch, summarization, classification) are modelled as explicit oracle
values, where `Option.none` stands for the call raising an exception.
Python's falsy coercions (`x or y` over `None`/`""`) are modelled by using
`""` (resp. `none`) for missing dictionary keys; `isinstance` guards against
non-string values become vacuous in the typed embedding.

The file is organised as: all definitions first, then all theorems.
-/

namespace Findelix

/-! ## Python string primitives -/

/-- ASCII lower-casing of one character, modelling `str.lower` on the ASCII
range (the only range the repository's heuristics rely on). -/
def lowerChar (c : Char) : Char :=
  if 65 ≤ c.toNat ∧ c.toNat ≤ 90 then Char.ofNat (c.toNat + 32) else c

/-- ASCII upper-casing of one character, modelling `str.upper` on ASCII. -/
def upperChar (c : Char) : Char :=
  if 97 ≤ c.toNat ∧ c.toNat ≤ 122 then Char.ofNat (c.toNat - 32) else c

/-- Python whitespace characters (ASCII): space, tab, newline, carriage
return, vertical tab, form feed. -/
def isWsChar (c : Char) : Bool :=
  c.toNat = 32 || c.toNat = 9 || c.toNat = 10 || c.toNat = 13 ||
    c.toNat = 11 || c.toNat = 12

def stripLeadL (p : Char → Bool) (l : List Char) : List Char := l.dropWhile p

def stripTrailL (p : Char → Bool) (l : List Char) : List Char :=
  (l.reverse.dropWhile p).reverse

def stripBothL (p : Char → Bool) (l : List Char) : List Char :=
  stripTrailL p (stripLeadL p l)

/-- Python `str.strip()` (default whitespace stripping, ASCII model). -/
def pyStrip (s : String) : String := ⟨stripBothL isWsChar s.data⟩

/-- Python `str.strip(cs)` for an explicit character set. -/
def pyStripChars (cs : List Char) (s : String) : String :=
  ⟨stripBothL (fun c => cs.contains c) s.data⟩

/-- Python `str.lstrip(cs)` for an explicit character set. -/
def pyLStripChars (cs : List Char) (s : String) : String :=
  ⟨stripLeadL (fun c => cs.contains c) s.data⟩

/-- Python `str.lower()` (ASCII model). -/
def pyLower (s : String) : String := ⟨s.data.map lowerChar⟩

/-- Python `str.upper()` (ASCII model). -/
def pyUpper (s : String) : String := ⟨s.data.map upperChar⟩

/-- Python `str.capitalize()` (ASCII model): first character upper-cased,
remainder lower-cased. -/
def pyCapitalize (s : String) : String :=
  match s.data with
  | [] => ""
  | c :: rest => ⟨upperChar c :: rest.map lowerChar⟩

/-- Split a character list at the first occurrence of `c`: the part before
it and, when `c` occurs, the part after it. -/
def splitAtFirstC (c : Char) (l : List Char) : List Char × Option (List Char) :=
  (l.takeWhile (· ≠ c),
    match l.dropWhile (· ≠ c) with
    | [] => none
    | _ :: rest => some rest)

/-- Python `s.split(sep)` (single-character separator, keeps empty pieces). -/
def splitOnCharAux (sep : Char) : List Char → List Char → List (List Char)
  | [], acc => [acc.reverse]
  | c :: rest, acc =>
      if c = sep then acc.reverse :: splitOnCharAux sep rest []
      else splitOnCharAux sep rest (c :: acc)

def splitOnChar (sep : Char) (s : String) : List String :=
  (splitOnCharAux sep s.data []).map String.mk

/-- Python `s.split()` (whitespace split, drops empty pieces). -/
def wsSplitAux : List Char → List Char → List (List Char)
  | [], acc => if acc.isEmpty then [] else [acc.reverse]
  | c :: rest, acc =>
      if isWsChar c then
        if acc.isEmpty then wsSplitAux rest []
        else acc.reverse :: wsSplitAux rest []
      else wsSplitAux rest (c :: acc)

def wsSplit (s : String) : List String := (wsSplitAux s.data []).map String.mk

/-- Joining of word lists with single spaces (`" ".join`). -/
def joinWords : List (List Char) → List Char
  | [] => []
  | [w] => w
  | w :: rest => w ++ ' ' :: joinWords rest

/-- Python `" ".join(s.split())`: collapse whitespace runs to single spaces
and drop leading/trailing whitespace.  (`re.sub(r"\s+", " ", t)` composed
with a strip whose character set contains the space is equivalent.) -/
def collapseWs (s : String) : String := ⟨joinWords (wsSplitAux s.data [])⟩

/-- Decidable check that `pat` occurs at the head of `l`. -/
def startsWithSeq [DecidableEq α] : List α → List α → Bool
  | [], _ => true
  | _ :: _, [] => false
  | p :: ps, x :: xs => p = x && startsWithSeq ps xs

/-- Decidable check that `pat` occurs contiguously inside `l`. -/
def containsSeq [DecidableEq α] (pat : List α) : List α → Bool
  | [] => pat.isEmpty
  | x :: xs => startsWithSeq pat (x :: xs) || containsSeq pat xs

/-- Python `sub in s` for strings. -/
def pyInStr (sub s : String) : Bool := containsSeq sub.data s.data

/-- Python `s.startswith(p)`. -/
def pyStartsWith (p s : String) : Bool := startsWithSeq p.data s.data

/-- Python `s.endswith(p)`. -/
def pyEndsWith (p s : String) : Bool :=
  startsWithSeq p.data.reverse s.data.reverse

/-- Total lexicographic comparison of character lists by code point,
modelling the string ordering used by Python's `sorted`. -/
def lexLe : List Char → List Char → Bool
  | [], _ => true
  | _ :: _, [] => false
  | a :: as, b :: bs =>
      if a.toNat < b.toNat then true
      else if b.toNat < a.toNat then false
      else lexLe as bs

def strLeB (a b : String) : Bool := lexLe a.data b.data

/-- Python `sorted(set(_))`: the ascending list of the distinct elements. -/
def pySortedSet (l : List String) : List String :=
  List.insertionSort (fun a b => strLeB a b = true) l.dedup

/-- Order-preserving deduplication keeping the first occurrence, as
`core._dedupe_list` does. -/
def dedupFirst [DecidableEq α] : List α → List α → List α
  | [], _ => []
  | x :: xs, seen =>
      if seen.contains x then dedupFirst xs seen else x :: dedupFirst xs (x :: seen)

/-! ## CPython `urllib.parse` model (Python 3.11 semantics)

`providers/socials.py` (`canonicalize`) and `providers/contacts.py`
(`urlparse(website).netloc`) depend on the standard library's `urlparse` /
`urlunparse`; they are modelled here after CPython 3.11's `urllib/parse.py`.
The NFKC check `_checknetloc` performs for non-ASCII netlocs is not modelled
(it is the identity on ASCII input); the `ValueError` raised for unbalanced
IPv6 brackets is modelled as `none`. -/

def schemeCharB (c : Char) : Bool :=
  (97 ≤ c.toNat && c.toNat ≤ 122) || (65 ≤ c.toNat && c.toNat ≤ 90) ||
    (48 ≤ c.toNat && c.toNat ≤ 57) || c = '+' || c = '-' || c = '.'

def isAsciiAlphaB (c : Char) : Bool :=
  (97 ≤ c.toNat && c.toNat ≤ 122) || (65 ≤ c.toNat && c.toNat ≤ 90)

/-- Input sanitization of `urlsplit`: strip leading WHATWG C0-control-or-
space characters, then remove the unsafe bytes `\t`, `\r`, `\n`
everywhere. -/
def cleanUrlL (l : List Char) : List Char :=
  (l.dropWhile (fun c => c.toNat ≤ 32)).filter
    (fun c => !(c = '\t' || c = '\r' || c = '\n'))

/-- Scheme extraction of `urlsplit`: `(scheme, rest)`, with an empty scheme
when there is no colon or the prefix before the first colon is not a valid
scheme (`i > 0`, ASCII-alphabetic first character, scheme characters only);
an extracted scheme is lower-cased. -/
def schemeSplit (l : List Char) : List Char × List Char :=
  let pre := l.takeWhile (· ≠ ':')
  if pre.length = l.length then ([], l)
  else
    match pre with
    | [] => ([], l)
    | c :: _ =>
        if isAsciiAlphaB c && pre.all schemeCharB then
          (pre.map lowerChar, l.drop (pre.length + 1))
        else ([], l)

def netlocDelim (c : Char) : Bool := c = '/' || c = '?' || c = '#'

def bracketBad (n : List Char) : Bool :=
  (n.contains '[' && !n.contains ']') || (n.contains ']' && !n.contains '[')

def isHexDigitB (c : Char) : Bool :=
  (48 ≤ c.toNat && c.toNat ≤ 57) || (97 ≤ c.toNat && c.toNat ≤ 102) ||
    (65 ≤ c.toNat && c.toNat ≤ 70)

/-- One dotted-quad octet per `ipaddress.IPv4Address._parse_octet`: 1–3
decimal digits, no leading zero, value at most 255. -/
def ipv4OctetOk (l : List Char) : Bool :=
  l ≠ [] && l.length ≤ 3 && l.all Char.isDigit &&
    !(1 < l.length && l.head? = some '0') &&
    (l.foldl (fun acc c => acc * 10 + (c.toNat - 48)) 0) ≤ 255

/-- `ipaddress.IPv4Address` textual validity (four octets). -/
def ipv4Ok (l : List Char) : Bool :=
  match splitOnCharAux '.' l [] with
  | [a, b, c, d] => ipv4OctetOk a && ipv4OctetOk b && ipv4OctetOk c && ipv4OctetOk d
  | _ => false

/-- One IPv6 hextet: 1–4 hexadecimal digits. -/
def hextetOk (l : List Char) : Bool := l ≠ [] && l.length ≤ 4 && l.all isHexDigitB

/-- `ipaddress.IPv6Address._ip_int_from_string` validity (after the scope id
was removed): the colon-group grammar with at most one `::` compression and
an optional trailing dotted quad. -/
def ipv6CoreOk (addr : List Char) : Bool :=
  let parts0 := splitOnCharAux ':' addr []
  if parts0.length < 3 then false
  else
    let lst := parts0.getLastD []
    let parts := if lst.contains '.' then parts0.dropLast ++ [['0'], ['0']] else parts0
    if lst.contains '.' && !ipv4Ok lst then false
    else if 9 < parts.length then false
    else
      let n := parts.length
      let interior := (parts.drop 1).dropLast
      match interior.findIdx? (· = []) with
      | some j =>
          let i := j + 1
          if (interior.filter (· = [])).length ≠ 1 then false
          else
            let hiOk := if parts.headD [] = [] then i = 1 else true
            let hi := if parts.headD [] = [] then 0 else i
            let loOk := if parts.getLastD [] = [] then i = n - 2 else true
            let lo := if parts.getLastD [] = [] then 0 else n - i - 1
            hiOk && loOk && hi + lo < 8 &&
              (parts.take hi).all hextetOk && (parts.drop (n - lo)).all hextetOk
      | none =>
          n = 8 && parts.headD [] ≠ [] && parts.getLastD [] ≠ [] &&
            parts.all hextetOk

/-- `ipaddress.IPv6Address` textual validity including an optional
`%scope` suffix. -/
def ipv6Ok (l : List Char) : Bool :=
  match splitAtFirstC '%' l with
  | (addr, some scope) => scope ≠ [] && !scope.contains '%' && ipv6CoreOk addr
  | (addr, none) => ipv6CoreOk addr

/-- `_check_bracketed_host`: a host in brackets must be an IPvFuture literal
(`v` + hex + `.` + non-empty remainder) or a valid IPv6 literal; a valid
IPv4 literal or anything else raises. -/
def bracketHostOk (h : List Char) : Bool :=
  match h with
  | 'v' :: tl =>
      let hx := tl.takeWhile isHexDigitB
      let rest := tl.drop hx.length
      hx ≠ [] && rest.head? = some '.' && rest.drop 1 ≠ [] &&
        (rest.drop 1).all (· ≠ '\n')
  | _ => ipv6Ok h

/-- The bracketed part of a netloc:
`netloc.partition('[')[2].partition(']')[0]`. -/
def bracketedHostOf (n : List Char) : List Char :=
  match (splitAtFirstC '[' n).2 with
  | none => []
  | some rest => (splitAtFirstC ']' rest).1

/-- The netloc validations of `urlsplit`: unbalanced brackets, and
`_check_bracketed_host` when both brackets occur. -/
def netlocBad (n : List Char) : Bool :=
  bracketBad n ||
    (n.contains '[' && n.contains ']' && !bracketHostOk (bracketedHostOf n))

/-- `_splitnetloc` plus the netloc validations; `none` models the
`ValueError`. -/
def netlocSplit : List Char → Option (List Char × List Char)
  | '/' :: '/' :: rest =>
      let n := rest.takeWhile (fun c => !netlocDelim c)
      if netlocBad n then none else some (n, rest.drop n.length)
  | l => some ([], l)

def usesParamsL : List (List Char) :=
  ["", "ftp", "hdl", "prospero", "http", "imap", "https", "shttp", "rtsp",
    "rtsps", "rtspu", "sip", "sips", "mms", "sftp", "tel"].map String.data

def usesNetlocL : List (List Char) :=
  ["", "ftp", "http", "gopher", "nntp", "telnet", "imap", "wais", "file",
    "mms", "https", "shttp", "snews", "prospero", "rtsp", "rtsps", "rtspu",
    "rsync", "svn", "svn+ssh", "sftp", "nfs", "git", "git+ssh", "ws",
    "wss"].map String.data

/-- `_splitparams`: split path parameters after the `;` of the last path
segment. -/
def pySplitParams (p : List Char) : List Char × List Char :=
  if p.contains '/' then
    let k := p.length - 1 - (p.reverse.takeWhile (· ≠ '/')).length
    let tail := p.drop k
    let pre := tail.takeWhile (· ≠ ';')
    if pre.length = tail.length then (p, [])
    else (p.take (k + pre.length), p.drop (k + pre.length + 1))
  else
    let pre := p.takeWhile (· ≠ ';')
    if pre.length = p.length then (p, [])
    else (pre, p.drop (pre.length + 1))

structure UrlParts where
  scheme : List Char
  netloc : List Char
  path : List Char
  params : List Char
  query : List Char
  fragment : List Char
  deriving DecidableEq

/-- `urllib.parse.urlparse` (via `urlsplit`; `allow_fragments=True`). -/
def pyUrlparseL (l0 : List Char) : Option UrlParts :=
  let l := cleanUrlL l0
  let sr := schemeSplit l
  match netlocSplit sr.2 with
  | none => none
  | some (n, r2) =>
      let bf := splitAtFirstC '#' r2
      let f := (bf.2).getD []
      let pq := splitAtFirstC '?' bf.1
      let q := (pq.2).getD []
      let pp :=
        if usesParamsL.contains sr.1 ∧ pq.1.contains ';' then pySplitParams pq.1
        else (pq.1, [])
      some ⟨sr.1, n, pp.1, pp.2, q, f⟩

/-- `urllib.parse.urlunsplit`. -/
def pyUrlunsplitL (s n u q f : List Char) : List Char :=
  let url :=
    if n ≠ [] ∨ (s ≠ [] ∧ usesNetlocL.contains s ∧ ¬ startsWithSeq ['/', '/'] u = true) then
      let u2 := if u ≠ [] ∧ u.head? ≠ some '/' then '/' :: u else u
      '/' :: '/' :: (n ++ u2)
    else u
  let url := if s ≠ [] then s ++ ':' :: url else url
  let url := if q ≠ [] then url ++ '?' :: q else url
  if f ≠ [] then url ++ '#' :: f else url

/-- `urllib.parse.urlunparse`. -/
def pyUrlunparseL (r : UrlParts) : List Char :=
  let u := if r.params ≠ [] then r.path ++ ';' :: r.params else r.path
  pyUrlunsplitL r.scheme r.netloc u r.query r.fragment

/-- `u.path.rstrip("/") if u.path != "/" else "/"`. -/
def rstripSlashL (p : List Char) : List Char :=
  if p = ['/'] then ['/'] else (p.reverse.dropWhile (· = '/')).reverse

/-- `providers/socials.py` `canonicalize`: drop params, query and fragment
and the path's trailing slashes; on a parse `ValueError`, return the stripped
input. -/
def canonicalize (url : String) : String :=
  match pyUrlparseL url.data with
  | none => pyStrip url
  | some r => ⟨pyUrlunparseL ⟨r.scheme, r.netloc, rstripSlashL r.path, [], [], []⟩⟩

/-! ## serper.py: domain normalization, category rules -/

/-- `providers/serper.py` `normalize_domain`. -/
def normalizeDomain (domain : String) : String :=
  let d := pyLower (pyStrip domain)
  let d := if pyStartsWith "http://" d then String.mk (d.data.drop 7)
           else if pyStartsWith "https://" d then String.mk (d.data.drop 8)
           else d
  let d := if pyInStr "/" d then String.mk (d.data.takeWhile (· ≠ '/')) else d
  pyLStripChars ['.'] d

/-- `providers/serper.py` `_RULES`, in table order. -/
def catRules : List (String × List String) :=
  [("Tech", ["software", "saas", "ai", "cloud", "tech", "it", "data",
      "developer", "app", "platform", "stream", "music"]),
   ("Retail", ["store", "shop", "retail", "ecommerce", "fashion", "apparel"]),
   ("Health", ["health", "clinic", "medical", "pharma", "biotech", "hospital",
      "wellness"]),
   ("Finance", ["bank", "fintech", "trading", "investment", "insurance",
      "accounting"]),
   ("Education", ["school", "university", "academy", "education", "edtech",
      "training"]),
   ("Hospitality", ["hotel", "restaurant", "cafe", "resort", "hospitality",
      "food"]),
   ("Real Estate", ["real estate", "property", "realtor", "housing"]),
   ("Manufacturing", ["manufactur", "factory", "industrial", "automation",
      "hardware"])]

/-- `providers/serper.py` `_ALLOWED`: the eight rule labels plus Other. -/
def allowedCats : List String := catRules.map Prod.fst ++ ["Other"]

/-- First whitespace token of the model's answer with `,.;` stripped
(`text.strip().split()[0].strip(",.;")`); `none` models the `IndexError` on
an all-whitespace answer, which the surrounding `except` turns into a fall
through. -/
def firstTokenStripped (s : String) : Option String :=
  match wsSplit (pyStrip s) with
  | [] => none
  | tok :: _ => some (pyStripChars [',', '.', ';'] tok)

/-- `providers/serper.py` `categorize_with_gemini_or_rules`.  `geminiCat` is
the text answered by the Gemini model (`none`: model unavailable or the call
raised); `localCat` is the local summarizer's output used in the
`USE_LOCAL` branch. -/
def categorize (name domain : String) (links : List (String × String))
    (geminiCat localCat : Option String) (useLocal : Bool) : String :=
  let t := pyLower (String.intercalate " " ([name, domain] ++ links.map Prod.fst))
  match catRules.find? (fun r => r.2.any (fun k => pyInStr k t)) with
  | some r => r.1
  | none =>
      let viaModel : Option String :=
        match geminiCat with
        | none => none
        | some ans =>
            match firstTokenStripped ans with
            | none => none
            | some tok => some (if allowedCats.contains tok then tok else "Other")
      match viaModel with
      | some c => c
      | none =>
          if useLocal then
            match localCat with
            | none => "Other"
            | some s =>
                let sl := pyLower s
                match catRules.find? (fun r => pyInStr (pyLower r.1) sl) with
                | some r => r.1
                | none => "Other"
          else "Other"

/-! ## contacts.py: brand e-mail matching, address plausibility, final
e-mail assembly -/

/-- `providers/contacts.py` `_brand_from_domain`. -/
def brandFromDomain (d : String) : String :=
  let nd := normalizeDomain d
  if nd = "" then "" else (splitOnChar '.' nd).headI

/-- The host part of an e-mail address, `email.split("@", 1)[1].lower()`;
`none` models the exception (no `@`) caught inside `_same_brand_email`. -/
def emailHost (email : String) : Option String :=
  match splitAtFirstC '@' email.data with
  | (_, none) => none
  | (_, some rest) => some (pyLower ⟨rest⟩)

/-- `providers/contacts.py` `_same_brand_email`. -/
def sameBrandEmail (email domain : String) : Bool :=
  match emailHost email with
  | none => false
  | some host =>
      let target := if domain ≠ "" then normalizeDomain domain else ""
      let brand := brandFromDomain target
      (target ≠ "" && pyEndsWith target host) ||
        (brand ≠ "" && pyStartsWith brand host)

def badAddrTokens : List String :=
  ["terms", "cookie", "policy", "privacy", "imprint", "copyright",
   "wishlist", "orders", "returns", "sale", "discount", "rs", "%", "deal",
   "cart"]

def brandNoiseWords : List String :=
  ["cart", "wishlist", "orders", "returns", "sale", "discount", "deal",
   "reel", "shorts", "noodle", "pasta"]

def nonLatinCount (l : List Char) : Nat :=
  (l.filter (fun c => 127 < c.toNat)).length

/-- `providers/contacts.py` `_is_plausible_address`.  The float comparison
`nonlatin > len(t) * 0.25` is exact for every length (`len / 4` is exactly
representable in binary floating point), hence the integer form
`4 * nonlatin > len`. -/
def isPlausibleAddress (txt : String) : Bool :=
  if txt = "" then false
  else
    let t := pyStrip (pyStripChars [',', ' '] (collapseWs txt))
    if t.length < 10 ∨ 200 < t.length then false
    else if pyInStr ";" t then false
    else
      let low := pyLower t
      if badAddrTokens.any (fun b => pyInStr b low) then false
      else if ¬ pyInStr "," t then false
      else if ¬ t.data.any Char.isDigit then false
      else
        let parts := ((splitOnChar ',' t).map pyStrip).filter (· ≠ "")
        if parts.length < 2 then false
        else
          let tl := parts.getLastD ""
          if tl.length < 3 ∧ ¬ (["US", "USA", "UK", "UAE", "EU"].contains (pyUpper tl)) then false
          else if t.length < 4 * nonLatinCount t.data then false
          else if brandNoiseWords.any (fun w => pyInStr w low) then false
          else true

/-- `dom_for_check = domain or (urlparse(website).netloc if website else "")`;
`none` models the `ValueError` a malformed IPv6 netloc makes `urlparse`
raise (which would escape `get_contacts`). -/
def domForCheck (domain website : String) : Option String :=
  if domain ≠ "" then some domain
  else if website ≠ "" then
    match pyUrlparseL website.data with
    | none => none
    | some r => some ⟨r.netloc⟩
  else some ""

/-- The e-mail slice of `providers/contacts.py` `get_contacts` (lines
284–384): every candidate inserted into the `emails` set is lower-cased at
insertion (`.lower()` at each of the three gathering sites), the set is then
filtered by `_same_brand_email` against `dom_for_check`, sorted after a
strip-and-lower pass, and replaced by the synthetic `info@<domain>` when the
domain is known and the result is empty.  `raw` is the multiset of candidate
strings the oracle-driven gathering produced. -/
def getContactsEmails (raw : List String) (domain website : String) :
    Option (List String) :=
  match domForCheck domain website with
  | none => none
  | some dfc =>
      let collected := (raw.map pyLower).dedup
      let filtered := collected.filter (fun e => sameBrandEmail e dfc)
      let base := pySortedSet (filtered.map (fun e => pyLower (pyStrip e)))
      let d := pyStrip domain
      some (if d ≠ "" ∧ base = [] then ["info@" ++ normalizeDomain d] else base)

/-! ## executives.py final stage and core.py executive sanitizing -/

/-- `_rank`, identical in `providers/executives.py` and `core.py`. -/
def rankOf (title : String) : Int :=
  let t := pyLower title
  if pyInStr "ceo" t then 0
  else if pyInStr "chief" t then 1
  else if pyInStr "president" t then 2
  else if pyInStr "cfo" t || pyInStr "cto" t || pyInStr "coo" t ||
      pyInStr "cmo" t || pyInStr "cio" t then 3
  else if pyInStr "chair" t || pyInStr "board" t || pyInStr "director" t then 4
  else if pyInStr "vp" t || pyInStr "svp" t || pyInStr "evp" t then 5
  else if pyInStr "founder" t then 6
  else 7

/-- `providers/executives.py` `_normalize_title`. -/
def normTitle (t : Option String) : Option String :=
  match t with
  | none => none
  | some t0 =>
      if t0 = "" then none
      else
        let t1 := pyStripChars [' ', ':', ',', '-', '|', '–', '—'] (collapseWs t0)
        let t2 := if 120 < t1.length then ⟨stripTrailL isWsChar (t1.data.take 120)⟩ else t1
        if t2 = "" then none else some t2

/-- A person record as gathered by the `get_executives` cascade; the cascade
sources are boundary collaborators, so the gathered list is the oracle. -/
structure RawPerson where
  name : String
  jobTitle : Option String
  linkedin : Option String
  deriving DecidableEq

structure RankedPerson where
  name : String
  jobTitle : Option String
  linkedin : Option String
  rank : Int
  deriving DecidableEq

/-- `providers/executives.py` `_uniq` (without its final truncation). -/
def uniqPeopleAux : List RawPerson → List (String × String) → List RawPerson
  | [], _ => []
  | p :: rest, seen =>
      let key := (pyLower p.name, pyLower (p.jobTitle.getD ""))
      if p.name ≠ "" ∧ ¬ seen.contains key then
        ⟨p.name, normTitle p.jobTitle, p.linkedin⟩ :: uniqPeopleAux rest (key :: seen)
      else uniqPeopleAux rest seen

def uniqPeople (l : List RawPerson) : List RawPerson := (uniqPeopleAux l []).take 12

/-- The LinkedIn back-fill loop of `get_executives`; `fill` is the
search-probe oracle `_fill_linkedin_via_search` for the fixed company. -/
def fillLinked (fill : String → Option String) (l : List RawPerson) : List RawPerson :=
  l.map (fun p =>
    if p.linkedin = none ∨ p.linkedin = some "" then
      match fill p.name with
      | some li => if li ≠ "" then { p with linkedin := some li } else p
      | none => p
    else p)

/-- The deterministic tail of `providers/executives.py` `get_executives`:
LinkedIn back-fill, `_uniq`, rank attachment, stable sort by rank,
truncation to 12.  `gathered` is the `results` list the oracle-driven
cascade accumulated. -/
def getExecutivesFinal (fill : String → Option String) (gathered : List RawPerson) :
    List RankedPerson :=
  let u := uniqPeople (fillLinked fill gathered)
  let ranked := u.map (fun p =>
    RankedPerson.mk p.name p.jobTitle p.linkedin (rankOf (p.jobTitle.getD "")))
  (List.insertionSort (fun a b => a.rank ≤ b.rank) ranked).take 12

/-- Loose executive record as `core._sanitize_executives` receives it from
an arbitrary provider; `""` models a missing or `None` field, `rank` is
`some` exactly when the dict holds an integer rank. -/
structure LooseExec where
  name : String
  jobTitle : String
  title : String
  linkedin : String
  url : String
  rank : Option Int
  deriving DecidableEq

structure CoreExec where
  name : String
  jobTitle : Option String
  linkedin : Option String
  rank : Int
  deriving DecidableEq

/-- The filtering/deduplication loop of `core._sanitize_executives`. -/
def sanitizeExecsAux : List LooseExec → List (String × String) → List CoreExec
  | [], _ => []
  | e :: rest, seen =>
      let name := pyStrip e.name
      let t0 := pyStrip (if e.jobTitle ≠ "" then e.jobTitle else e.title)
      let li0 := pyStrip (if e.linkedin ≠ "" then e.linkedin else e.url)
      if name = "" then sanitizeExecsAux rest seen
      else
        let key := (pyLower name, pyLower t0)
        if seen.contains key then sanitizeExecsAux rest seen
        else
          let rank := match e.rank with
            | some r => r
            | none => rankOf t0
          ⟨name, if t0 = "" then none else some t0,
            if li0 = "" then none else some li0, rank⟩ ::
            sanitizeExecsAux rest (key :: seen)

/-- `core._sanitize_executives`. -/
def sanitizeExecutives (l : List LooseExec) : List CoreExec :=
  (List.insertionSort (fun a b => a.rank ≤ b.rank) (sanitizeExecsAux l [])).take 12

/-- Conversion of the executive extractor's output dictionaries to the loose
records the core sanitizer consumes (`title` and `url` keys are absent in
the provider's dicts). -/
def rankedToLoose (p : RankedPerson) : LooseExec :=
  ⟨p.name, p.jobTitle.getD "", "", p.linkedin.getD "", "", some p.rank⟩

/-- The case-insensitive deduplication key of a sanitized executive. -/
def execKey (e : CoreExec) : String × String :=
  (pyLower e.name, pyLower (e.jobTitle.getD ""))

instance : IsTotal CoreExec (fun a b => a.rank ≤ b.rank) :=
  ⟨fun a b => Int.le_total a.rank b.rank⟩

instance : IsTrans CoreExec (fun a b => a.rank ≤ b.rank) :=
  ⟨fun _ _ _ h1 h2 => le_trans h1 h2⟩

/-! ## posts.py and core.py post sanitizing -/

structure RawFeedItem where
  title : String
  link : String
  published : String
  deriving DecidableEq

structure PostItem where
  title : String
  link : String
  published : String
  deriving DecidableEq

/-- `providers/posts.py` `_fetch_feed_items`: the first six feed entries
having non-empty stripped title and link (the feed body is the oracle). -/
def fetchFeedItems (entries : List RawFeedItem) : List PostItem :=
  (entries.take 6).filterMap (fun it =>
    let title := pyStrip it.title
    let link := pyStrip it.link
    if title ≠ "" ∧ link ≠ "" then some ⟨title, link, pyStrip it.published⟩ else none)

/-- One `_news_pass`: valid items with stripped date, capped at
`MAX_POSTS = 3`. -/
def newsPassItems (raw : List RawFeedItem) : List PostItem :=
  (raw.filterMap (fun it =>
    let title := pyStrip it.title
    let link := pyStrip it.link
    if title ≠ "" ∧ link ≠ "" then some ⟨title, link, pyStrip it.published⟩ else none)).take 3

/-- One `_web_pass`: valid items, date taken as-is, capped at 3. -/
def webPassItems (raw : List RawFeedItem) : List PostItem :=
  (raw.filterMap (fun it =>
    let title := pyStrip it.title
    let link := pyStrip it.link
    if title ≠ "" ∧ link ≠ "" then some ⟨title, link, it.published⟩ else none)).take 3

/-- The feed loop of `_pull_rss_or_news`: accumulate feed items per feed,
returning early (capped at 3) once three are collected. -/
def feedLoopAux : List (List RawFeedItem) → List PostItem → List PostItem
  | [], acc => acc
  | es :: rest, acc =>
      let acc2 := acc ++ fetchFeedItems es
      if 3 ≤ acc2.length then acc2.take 3 else feedLoopAux rest acc2

/-- `providers/posts.py` `_pull_rss_or_news`.  `feeds` holds, per discovered
feed URL, the feed's entry list (empty when the homepage fetch failed or no
feed was found); `news`/`web` map a locale to the corresponding search
results. -/
def pullPosts (feeds : List (List RawFeedItem))
    (news web : String → List RawFeedItem)
    (company domain website : String) : List PostItem :=
  let posts0 := if website ≠ "" then feedLoopAux feeds [] else []
  if 3 ≤ posts0.length then posts0
  else
    let q := if company ≠ "" then company else domain
    if q = "" then posts0.take 3
    else
      let glPref := if pyEndsWith ".pk" domain then "pk" else "us"
      let posts1 := posts0 ++ newsPassItems (news glPref)
      let posts2 := if posts1 = [] ∧ glPref ≠ "us" then newsPassItems (news "us") else posts1
      let posts3 := if posts2 = [] then webPassItems (web glPref) else posts2
      let posts4 := if posts3 = [] ∧ glPref ≠ "us" then webPassItems (web "us") else posts3
      posts4.take 3

/-- Output dictionary shape of `get_recent_posts`: regular items carry
`title`/`link`/`published`; the placeholder carries `url = None` and
`placeholder = True`.  `link = ""` models a missing key. -/
structure PostOut where
  source : Option String
  title : String
  link : String
  url : Option String
  published : Option String
  placeholder : Bool
  deriving DecidableEq

/-- `providers/posts.py` `get_recent_posts`. -/
def getRecentPosts (feeds : List (List RawFeedItem))
    (news web : String → List RawFeedItem)
    (company domain website : String) : List PostOut :=
  let items := (pullPosts feeds news web company domain website).take 3
  if items ≠ [] then
    items.map (fun it => ⟨none, it.title, it.link, none, some it.published, false⟩)
  else [⟨none, "No Posts to Show", "", none, none, true⟩]

structure CleanPost where
  source : Option String
  title : String
  link : Option String
  published : Option String
  placeholder : Bool
  deriving DecidableEq

def placeholderPost : CleanPost := ⟨none, "No Posts to Show", none, none, true⟩

/-- The per-item loop of `core._sanitize_posts`. -/
def sanitizePostsClean : List PostOut → List CleanPost
  | [] => []
  | p :: rest =>
      let title := pyStrip p.title
      let link := pyStrip (if p.link ≠ "" then p.link else p.url.getD "")
      if title = "" ∨ link = "" then
        if p.placeholder then
          ⟨p.source, "No Posts to Show", none, none, true⟩ :: sanitizePostsClean rest
        else sanitizePostsClean rest
      else ⟨p.source, title, some link, p.published, false⟩ :: sanitizePostsClean rest

/-- `core._dedupe_dicts(clean, key="link")`: entries with a falsy key are
dropped, later duplicates are dropped. -/
def dedupByLink : List CleanPost → List String → List CleanPost
  | [], _ => []
  | p :: rest, seen =>
      match p.link with
      | none => dedupByLink rest seen
      | some k =>
          if k = "" then dedupByLink rest seen
          else if seen.contains k then dedupByLink rest seen
          else p :: dedupByLink rest (k :: seen)

/-- `core._sanitize_posts`. -/
def sanitizePosts (posts : List PostOut) : List CleanPost :=
  let capped := (dedupByLink (sanitizePostsClean posts) []).take 5
  if capped = [] then [placeholderPost] else capped

/-! ## core.py: remaining sanitizers and the aggregator -/

structure RawSocials where
  website : Option String
  links : List (String × String)
  deriving DecidableEq

structure SocialsOut where
  website : Option String
  links : List (String × String)
  deriving DecidableEq

def allowedSocials : List String := ["facebook", "instagram", "twitter", "linkedin"]

/-- `core._sanitize_socials`. -/
def sanitizeSocials (s : RawSocials) : SocialsOut :=
  ⟨s.website, s.links.filter (fun kv => allowedSocials.contains kv.1 ∧ kv.2 ≠ "")⟩

/-- `core._ensure_website`. -/
def ensureWebsite (domain : String) (website : Option String) : Option String :=
  let w := pyStrip (website.getD "")
  if w ≠ "" then some w
  else
    let d := pyLStripChars ['.'] (pyStrip domain)
    if d = "" then none
    else if ¬ pyStartsWith "http://" d ∧ ¬ pyStartsWith "https://" d then
      some ("https://" ++ d)
    else some d

structure RawAddr where
  value : String
  source : String
  deriving DecidableEq

structure RawContacts where
  emails : List String
  phones : List String
  addresses : List RawAddr
  deriving DecidableEq

structure AddrOut where
  value : String
  source : Option String
  deriving DecidableEq

def badAddrTokensCore : List String :=
  ["terms", "cookie", "policy", "listen", "playlist", "privacy"]

/-- `core._looks_like_address`. -/
def looksLikeAddress (txt : String) : Bool :=
  if txt = "" then false
  else
    let t := pyStrip (pyStripChars [',', ' '] (collapseWs txt))
    if t.length < 8 ∨ 200 < t.length then false
    else
      let low := pyLower t
      if badAddrTokensCore.any (fun b => pyInStr b low) then false
      else pyInStr "," t || t.data.any Char.isDigit

/-- `core._dedupe_dicts(addrs, key="value")`. -/
def dedupByValue : List AddrOut → List String → List AddrOut
  | [], _ => []
  | a :: rest, seen =>
      if a.value = "" then dedupByValue rest seen
      else if seen.contains a.value then dedupByValue rest seen
      else a :: dedupByValue rest (a.value :: seen)

structure ContactsOut where
  emails : List String
  phones : List String
  addresses : List AddrOut
  deriving DecidableEq

/-- `core._sanitize_contacts`. -/
def sanitizeContacts (c : RawContacts) : ContactsOut :=
  let emails := dedupFirst (c.emails.filter (fun e => e.data.contains '@')) []
  let phones := dedupFirst c.phones []
  let addrs := c.addresses.filterMap (fun a =>
    let v := pyStrip a.value
    let s := pyStrip a.source
    if looksLikeAddress v then some (AddrOut.mk v (if s = "" then none else some s))
    else none)
  ⟨emails, phones, dedupByValue addrs []⟩

/-- Boundary behaviour of one `build_profile` run: each provider call either
returns a value or raises (`none`); the classifier oracles drive the
embedded `categorize_with_gemini_or_rules`. -/
structure Collaborators where
  socials : Option RawSocials
  contacts : Option RawContacts
  execs : Option (List LooseExec)
  posts : Option (List PostOut)
  summary : Option String
  geminiCat : Option String
  localCat : Option String
  useLocal : Bool

/-- `core._safe_call`: a raised exception (or a `None` result) degrades to
the default. -/
def safeCall (o : Option α) (default : α) : α := o.getD default

structure Profile where
  company : Option String
  domain : Option String
  website : Option String
  socials : SocialsOut
  contacts : ContactsOut
  executives : List CoreExec
  summary : String
  recentPosts : List CleanPost
  category : String
  generatedAt : String
  latencyMs : Int
  deriving DecidableEq

def defaultSocials (domain : String) : RawSocials := ⟨ensureWebsite domain none, []⟩

/-- `core.build_profile`, boundary behaviour supplied by `collab`,
wall-clock stamps supplied as `now` / `latency`. -/
def buildProfile (company0 domain0 : String) (collab : Collaborators)
    (now : String) (latency : Int) : Profile :=
  let company := pyStrip company0
  let domain := normalizeDomain (pyStrip domain0)
  let socials := sanitizeSocials (safeCall collab.socials (defaultSocials domain))
  let website := ensureWebsite domain socials.website
  let company := if company = "" ∧ domain ≠ "" then
      pyCapitalize (splitOnChar '.' domain).headI
    else company
  let contacts0 := sanitizeContacts (safeCall collab.contacts ⟨[], [], []⟩)
  let contacts := if domain ≠ "" ∧ contacts0.emails = [] then
      { contacts0 with emails := ["info@" ++ domain] }
    else contacts0
  let execs := sanitizeExecutives (safeCall collab.execs [])
  let postsList := sanitizePosts (safeCall collab.posts [])
  let summary := safeCall collab.summary ""
  let category := categorize company domain socials.links collab.geminiCat
    collab.localCat collab.useLocal
  { company := if company = "" then none else some company
    domain := if domain = "" then none else some domain
    website := website
    socials := ⟨website, socials.links⟩
    contacts := contacts
    executives := execs
    summary := summary
    recentPosts := postsList
    category := category
    generatedAt := now
    latencyMs := latency }

/-- The time-independent content of a profile (everything except
`generated_at` and `latency_ms`). -/
structure ProfileCore where
  company : Option String
  domain : Option String
  website : Option String
  socials : SocialsOut
  contacts : ContactsOut
  executives : List CoreExec
  summary : String
  recentPosts : List CleanPost
  category : String
  deriving DecidableEq

def Profile.core (p : Profile) : ProfileCore :=
  ⟨p.company, p.domain, p.website, p.socials, p.contacts, p.executives,
    p.summary, p.recentPosts, p.category⟩

/-- Structural well-formedness of a profile, the documented shape of each
field: a present website is non-empty; the socials block repeats the
profile's website and holds only allowed platforms with non-blank URLs; a
present domain forces a non-empty e-mail list and every e-mail contains an
`@`; kept addresses pass the plausibility filter; executives have non-empty
names, are sorted ascending by rank and number at most 12; the posts list
has 1 to 5 entries, each with a non-empty title; the category is one of the
nine allowed labels. -/
def profileWf (p : Profile) : Prop :=
  (∀ w, p.website = some w → w ≠ "") ∧
  p.socials.website = p.website ∧
  (∀ kv ∈ p.socials.links, kv.1 ∈ allowedSocials ∧ kv.2 ≠ "") ∧
  (∀ d, p.domain = some d → p.contacts.emails ≠ []) ∧
  (∀ e ∈ p.contacts.emails, e.data.contains '@' = true) ∧
  (∀ a ∈ p.contacts.addresses, looksLikeAddress a.value = true) ∧
  (∀ e ∈ p.executives, e.name ≠ "") ∧
  p.executives.Sorted (fun a b => a.rank ≤ b.rank) ∧
  p.executives.length ≤ 12 ∧
  1 ≤ p.recentPosts.length ∧
  p.recentPosts.length ≤ 5 ∧
  (∀ q ∈ p.recentPosts, q.title ≠ "") ∧
  p.category ∈ allowedCats

/-! ## app.py: bulk endpoint guardrails -/

inductive BulkReject where
  | noRows
  | tooMany
  deriving DecidableEq

/-- The decision logic of the `app.bulk` route once rows are parsed: drop
empty rows, reject an empty batch, reject an over-limit batch before any
extraction, otherwise run `core.bulk_build_profiles` (a map of the builder
over the rows).  The builder is a parameter so that not invoking it is
expressible. -/
def bulkEndpoint {α : Type} (build : String → String → α)
    (items : List (String × String)) (maxItems : Nat) :
    Except BulkReject (List α) :=
  let rows := items.filter (fun cd => cd.1 ≠ "" ∨ cd.2 ≠ "")
  if rows = [] then .error .noRows
  else if maxItems < rows.length then .error .tooMany
  else .ok (rows.map (fun cd => build cd.1 cd.2))

/-- The all-failing boundary behaviour: every provider call raises and no
classifier is available. -/
def failCollab : Collaborators := ⟨none, none, none, none, none, none, none, false⟩

/-!
# Theorems
-/

/-! ## Character and string lemmas -/

theorem toNat_ofNat_lt (n : Nat) (h : n < 55296) : (Char.ofNat n).toNat = n := by
  have hv : n.isValidChar := Or.inl h
  unfold Char.ofNat
  rw [dif_pos hv]
  unfold Char.ofNatAux Char.toNat
  simp [UInt32.toNat, UInt32.ofNatCore]

theorem lowerChar_toNat_of_upper {c : Char} (h : 65 ≤ c.toNat ∧ c.toNat ≤ 90) :
    (lowerChar c).toNat = c.toNat + 32 := by
  unfold lowerChar
  rw [if_pos h]
  exact toNat_ofNat_lt _ (by omega)

theorem lowerChar_idem (c : Char) : lowerChar (lowerChar c) = lowerChar c := by
  by_cases h : 65 ≤ c.toNat ∧ c.toNat ≤ 90
  · have h1 : (lowerChar c).toNat = c.toNat + 32 := lowerChar_toNat_of_upper h
    have h2 : ¬(65 ≤ (lowerChar c).toNat ∧ (lowerChar c).toNat ≤ 90) := by omega
    generalize hd : lowerChar c = d at h2 ⊢
    unfold lowerChar
    rw [if_neg h2]
  · have h2 : lowerChar c = c := by unfold lowerChar; rw [if_neg h]
    rw [h2, h2]

theorem lowerChar_comp : lowerChar ∘ lowerChar = lowerChar := funext lowerChar_idem

theorem pyLower_idem (s : String) : pyLower (pyLower s) = pyLower s := by
  unfold pyLower
  rw [List.map_map, lowerChar_comp]

/-- Lower-casing never moves a character into or out of the whitespace
class. -/
theorem isWsChar_lowerChar (c : Char) : isWsChar (lowerChar c) = isWsChar c := by
  by_cases h : 65 ≤ c.toNat ∧ c.toNat ≤ 90
  · have h1 : (lowerChar c).toNat = c.toNat + 32 := lowerChar_toNat_of_upper h
    have hA : isWsChar (lowerChar c) = false := by
      unfold isWsChar
      rw [h1]
      simp only [Bool.or_eq_false_iff, decide_eq_false_iff_not]
      omega
    have hB : isWsChar c = false := by
      unfold isWsChar
      simp only [Bool.or_eq_false_iff, decide_eq_false_iff_not]
      omega
    rw [hA, hB]
  · unfold lowerChar
    rw [if_neg h]

theorem dropWhile_eq_self_of_head {α : Type} {p : α → Bool} {l : List α}
    (h : ∀ c, l.head? = some c → p c = false) : l.dropWhile p = l := by
  cases l with
  | nil => rfl
  | cons a tl =>
      rw [List.dropWhile_cons, if_neg]
      simp [h a rfl]

/-- The head of a `dropWhile` result fails the predicate. -/
theorem dropWhile_head_not {α : Type} {p : α → Bool} :
    ∀ {l : List α} {c : α}, (l.dropWhile p).head? = some c → p c = false
  | [], c => by simp [List.dropWhile]
  | a :: tl, c => by
      rw [List.dropWhile_cons]
      by_cases hp : p a
      · rw [if_pos hp]
        exact dropWhile_head_not
      · rw [if_neg hp]
        intro h
        rw [List.head?_cons, Option.some.injEq] at h
        rw [← h]
        exact Bool.eq_false_iff.mpr hp

theorem stripBothL_eq_self {p : Char → Bool} {l : List Char}
    (h1 : ∀ c, l.head? = some c → p c = false)
    (h2 : ∀ c, l.getLast? = some c → p c = false) : stripBothL p l = l := by
  unfold stripBothL stripLeadL stripTrailL
  rw [dropWhile_eq_self_of_head h1]
  rw [dropWhile_eq_self_of_head (fun c hc => h2 c (by rwa [List.head?_reverse] at hc))]
  exact List.reverse_reverse l

theorem head?_mem {α : Type} {l : List α} {c : α} (h : l.head? = some c) : c ∈ l := by
  cases l with
  | nil => cases h
  | cons a tl =>
      simp only [List.head?_cons, Option.some.injEq] at h
      exact h ▸ List.mem_cons_self a tl

theorem getLast?_mem {α : Type} {l : List α} {c : α} (h : l.getLast? = some c) : c ∈ l := by
  have h2 : l.reverse.head? = some c := by rwa [List.head?_reverse]
  exact List.mem_reverse.mp (head?_mem h2)

theorem stripBothL_eq_self_of_all {p : Char → Bool} {l : List Char}
    (h : ∀ c ∈ l, p c = false) : stripBothL p l = l :=
  stripBothL_eq_self (fun c hc => h c (head?_mem hc)) (fun c hc => h c (getLast?_mem hc))

/-- `str.strip()` is the identity on whitespace-free strings. -/
theorem pyStrip_eq_self {s : String} (h : ∀ c ∈ s.data, isWsChar c = false) :
    pyStrip s = s := by
  unfold pyStrip
  rw [stripBothL_eq_self_of_all h]

theorem pyLower_ws_free {s : String} (h : ∀ c ∈ s.data, isWsChar c = false) :
    ∀ c ∈ (pyLower s).data, isWsChar c = false := by
  intro c hc
  unfold pyLower at hc
  simp only [List.mem_map] at hc
  obtain ⟨a, ha, rfl⟩ := hc
  rw [isWsChar_lowerChar]
  exact h a ha

/-! ## C9: two runs with identical collaborators agree on all content -/

/-- C9: `build_profile` is a pure function of its inputs and collaborator
behaviour: two runs against identical (deterministic, stubbed) boundary
collaborators produce profiles identical on every field except
`generated_at` and `latency_ms` (which are exactly the two fields `core`
erases). -/
theorem buildProfile_deterministic (company domain : String) (collab : Collaborators)
    (now1 now2 : String) (lat1 lat2 : Int) :
    (buildProfile company domain collab now1 lat1).core =
      (buildProfile company domain collab now2 lat2).core := rfl

/-! ## C8: over-limit bulk requests are rejected before extraction -/

/-- C8: a bulk request whose row count after dropping empty rows exceeds the
configured limit is answered with the `tooMany` error for every profile
builder whatsoever — in particular the builder is never consulted, so no
profile extraction begins. -/
theorem bulk_over_limit_rejected {α : Type} (build : String → String → α)
    (items : List (String × String)) (maxItems : Nat)
    (h : maxItems < (items.filter (fun cd => cd.1 ≠ "" ∨ cd.2 ≠ "")).length) :
    bulkEndpoint build items maxItems = Except.error BulkReject.tooMany := by
  unfold bulkEndpoint
  have hne : items.filter (fun cd => cd.1 ≠ "" ∨ cd.2 ≠ "") ≠ [] := by
    intro he
    rw [he] at h
    exact absurd h (by simp)
  rw [if_neg hne, if_pos h]

/-- Witness for C8 at a concrete over-limit batch. -/
theorem bulk_over_limit_rejected_witness :
    bulkEndpoint (fun a b : String => (a, b)) [("a", ""), ("b", "c")] 1 =
      Except.error BulkReject.tooMany :=
  bulk_over_limit_rejected _ _ _ (by decide)

/-! ## Lemmas on sequence containment and stripping -/

theorem startsWithSeq_exists {α : Type} [DecidableEq α] {p l : List α}
    (h : startsWithSeq p l = true) : ∃ t, l = p ++ t := by
  induction p generalizing l with
  | nil => exact ⟨l, rfl⟩
  | cons x xs ih =>
      cases l with
      | nil => cases h
      | cons y ys =>
          unfold startsWithSeq at h
          rw [Bool.and_eq_true] at h
          obtain ⟨t, ht⟩ := ih h.2
          exact ⟨t, by rw [ht, List.cons_append, (decide_eq_true_eq.mp h.1)]⟩

theorem containsSeq_single_of_mem {α : Type} [DecidableEq α] {c : α} {l : List α}
    (h : c ∈ l) : containsSeq [c] l = true := by
  induction l with
  | nil => cases h
  | cons x xs ih =>
      unfold containsSeq
      rw [Bool.or_eq_true]
      rcases List.mem_cons.mp h with h1 | h2
      · left
        unfold startsWithSeq
        have hrfl : startsWithSeq ([] : List α) xs = true := rfl
        simp [h1, hrfl]
      · exact Or.inr (ih h2)

theorem mem_stripLeadL {p : Char → Bool} {l : List Char} {c : Char}
    (h : c ∈ stripLeadL p l) : c ∈ l :=
  List.Sublist.subset (List.dropWhile_sublist _) h

theorem mem_stripTrailL {p : Char → Bool} {l : List Char} {c : Char}
    (h : c ∈ stripTrailL p l) : c ∈ l := by
  unfold stripTrailL at h
  rw [List.mem_reverse] at h
  exact List.mem_reverse.mp (List.Sublist.subset (List.dropWhile_sublist _) h)

theorem mem_stripBothL {p : Char → Bool} {l : List Char} {c : Char}
    (h : c ∈ stripBothL p l) : c ∈ l :=
  mem_stripLeadL (mem_stripTrailL h)

theorem mem_pyStrip {s : String} {c : Char} (h : c ∈ (pyStrip s).data) : c ∈ s.data :=
  mem_stripBothL h

theorem mem_pyLStripChars {cs : List Char} {s : String} {c : Char}
    (h : c ∈ (pyLStripChars cs s).data) : c ∈ s.data :=
  mem_stripLeadL h

theorem getLast?_stripTrailL {p : Char → Bool} {l : List Char} {c : Char}
    (h : (stripTrailL p l).getLast? = some c) : p c = false := by
  unfold stripTrailL at h
  rw [List.getLast?_reverse] at h
  exact dropWhile_head_not h

theorem getLast?_pyStrip {s : String} {c : Char}
    (h : (pyStrip s).data.getLast? = some c) : isWsChar c = false :=
  getLast?_stripTrailL h

theorem getLast?_dropWhile_of_ne {α : Type} {p : α → Bool} {l : List α}
    (h : l.dropWhile p ≠ []) : (l.dropWhile p).getLast? = l.getLast? := by
  induction l with
  | nil => simp at h
  | cons a tl ih =>
      rw [List.dropWhile_cons]
      by_cases hp : p a
      · rw [if_pos hp]
        rw [List.dropWhile_cons, if_pos hp] at h
        rw [ih h]
        cases tl with
        | nil => simp [List.dropWhile] at h
        | cons b tl2 => exact List.getLast?_cons_cons.symm
      · rw [if_neg hp]

/-- C4 support: `normalize_domain` output never contains a slash. -/
theorem normalizeDomain_no_slash (s : String) : '/' ∉ (normalizeDomain s).data := by
  unfold normalizeDomain
  intro hmem
  have h2 := mem_pyLStripChars hmem
  by_cases hc : pyInStr "/" (if pyStartsWith "http://" (pyLower (pyStrip s)) then
      String.mk ((pyLower (pyStrip s)).data.drop 7)
    else if pyStartsWith "https://" (pyLower (pyStrip s)) then
      String.mk ((pyLower (pyStrip s)).data.drop 8)
    else pyLower (pyStrip s))
  · rw [if_pos hc] at h2
    have := List.mem_takeWhile_imp h2
    simp at this
  · rw [if_neg hc] at h2
    exact absurd (containsSeq_single_of_mem h2) (by simpa [pyInStr] using hc)

theorem pyStartsWith_slash_mem {p s : String} (h : pyStartsWith p s = true)
    (hp : '/' ∈ p.data) : '/' ∈ s.data := by
  obtain ⟨t, ht⟩ := startsWithSeq_exists h
  rw [ht]
  exact List.mem_append.mpr (Or.inl hp)

/-! ## C4: website synthesis -/

theorem ensureWebsite_of_discovered {domain w0 : String} (h : pyStrip w0 ≠ "") :
    ensureWebsite domain (some w0) = some (pyStrip w0) := by
  unfold ensureWebsite
  simp only [Option.getD_some]
  rw [if_pos h]

theorem ensureWebsite_blank {domain : String} {website : Option String}
    (hw : pyStrip (website.getD "") = "") (hns : '/' ∉ domain.data) :
    ensureWebsite domain website =
      (if pyLStripChars ['.'] (pyStrip domain) = "" then none
       else some ("https://" ++ pyLStripChars ['.'] (pyStrip domain))) := by
  unfold ensureWebsite
  rw [hw]
  simp only [ne_eq, not_true_eq_false, if_false]
  by_cases hd : pyLStripChars ['.'] (pyStrip domain) = ""
  · rw [if_pos hd, if_pos hd]
  · rw [if_neg hd, if_neg hd, if_pos]
    constructor
    · intro hstart
      exact hns (mem_pyStrip (mem_pyLStripChars (pyStartsWith_slash_mem hstart (by decide))))
    · intro hstart
      exact hns (mem_pyStrip (mem_pyLStripChars (pyStartsWith_slash_mem hstart (by decide))))

/-- C4 support: the `website` field of a profile is exactly
`_ensure_website` applied to the normalized domain and the sanitized socials
website. -/
theorem buildProfile_website (company0 domain0 : String) (collab : Collaborators)
    (now : String) (lat : Int) :
    (buildProfile company0 domain0 collab now lat).website =
      ensureWebsite (normalizeDomain (pyStrip domain0))
        ((safeCall collab.socials
          (defaultSocials (normalizeDomain (pyStrip domain0)))).website) := rfl

/-- C4 counterexample: with an empty domain and only a company name, if the
social extractor discovers nothing the profile's `website` is `None`, not a
non-empty string. -/
theorem website_none_on_empty_domain :
    (buildProfile "Acme" "" failCollab "2026-01-01" 0).website = none := by decide

/-- Nonemptiness of `"https://" ++ d`. -/
theorem https_append_ne_empty (d : String) : ("https://" ++ d) ≠ "" := by
  intro h
  have : ("https://" ++ d).data = [] := by rw [h]
  rw [String.data_append] at this
  simp at this

theorem string_data_ne_nil {s : String} (h : s ≠ "") : s.data ≠ [] := by
  intro hd
  apply h
  cases s with
  | mk l => cases hd; rfl

theorem pyStrip_eq_self_of_ends {s : String}
    (h1 : ∀ c, s.data.head? = some c → isWsChar c = false)
    (h2 : ∀ c, s.data.getLast? = some c → isWsChar c = false) : pyStrip s = s := by
  unfold pyStrip
  rw [stripBothL_eq_self h1 h2]

/-- Stripping is the identity on `https://<d>` for the dot-stripped,
whitespace-stripped `d` the aggregator synthesizes. -/
theorem https_strip_self {nd : String}
    (hd : pyLStripChars ['.'] (pyStrip nd) ≠ "") :
    pyStrip ("https://" ++ pyLStripChars ['.'] (pyStrip nd)) =
      "https://" ++ pyLStripChars ['.'] (pyStrip nd) := by
  apply pyStrip_eq_self_of_ends
  · intro c hc
    rw [String.data_append] at hc
    rw [show ("https://").data = 'h' :: "ttps://".data from rfl] at hc
    rw [List.cons_append, List.head?_cons, Option.some.injEq] at hc
    rw [← hc]
    decide
  · intro c hc
    rw [String.data_append] at hc
    have hne : (pyLStripChars ['.'] (pyStrip nd)).data ≠ [] := string_data_ne_nil hd
    rw [List.getLast?_append_of_ne_nil _ hne] at hc
    have hdw : (pyLStripChars ['.'] (pyStrip nd)).data =
        (pyStrip nd).data.dropWhile (fun c => (['.'] : List Char).contains c) := rfl
    rw [hdw] at hc hne
    rw [getLast?_dropWhile_of_ne hne] at hc
    exact getLast?_pyStrip hc

/-- Full case characterization of `_ensure_website` at a slash-free domain:
a discovered non-blank website wins, otherwise `https://<domain>` is
synthesized when the domain survives stripping, otherwise `None`. -/
theorem ensureWebsite_cases (nd : String) (w : Option String) (hns : '/' ∉ nd.data) :
    ensureWebsite nd w =
      (if pyStrip (w.getD "") = "" then
        (if pyLStripChars ['.'] (pyStrip nd) = "" then none
         else some ("https://" ++ pyLStripChars ['.'] (pyStrip nd)))
       else some (pyStrip (w.getD ""))) := by
  by_cases hw : pyStrip (w.getD "") = ""
  · rw [if_pos hw]
    exact ensureWebsite_blank hw hns
  · rw [if_neg hw]
    unfold ensureWebsite
    rw [if_pos hw]

/-- The aggregator's composition for a failed socials call:
`_ensure_website` applied to the default's own `_ensure_website`. -/
theorem ensureWebsite_synth (nd : String) (hns : '/' ∉ nd.data) :
    ensureWebsite nd (ensureWebsite nd none) =
      (if pyLStripChars ['.'] (pyStrip nd) = "" then none
       else some ("https://" ++ pyLStripChars ['.'] (pyStrip nd))) := by
  have h0 : pyStrip ((none : Option String).getD "") = "" := rfl
  by_cases hd : pyLStripChars ['.'] (pyStrip nd) = ""
  · have hbase : ensureWebsite nd none = none := by
      rw [ensureWebsite_cases nd none hns, if_pos h0, if_pos hd]
    rw [hbase, hbase, if_pos hd]
  · have hbase : ensureWebsite nd none =
        some ("https://" ++ pyLStripChars ['.'] (pyStrip nd)) := by
      rw [ensureWebsite_cases nd none hns, if_pos h0, if_neg hd]
    rw [hbase, ensureWebsite_cases nd _ hns]
    simp only [Option.getD_some]
    rw [https_strip_self hd, if_neg (https_append_ne_empty _), if_neg hd]

/-- C4 (amended): the profile's `website` is a non-empty string whenever the
normalized, dot-stripped domain is non-empty or the social extractor
discovered a non-blank website; when nothing was discovered it is exactly
`https://<domain>` for a non-empty domain and `None` when the domain is
empty too (the counterexample input). -/
theorem website_guarantee (company0 domain0 : String) (collab : Collaborators)
    (now : String) (lat : Int) :
    (pyLStripChars ['.'] (pyStrip (normalizeDomain (pyStrip domain0))) ≠ "" →
       ∃ w, (buildProfile company0 domain0 collab now lat).website = some w ∧ w ≠ "") ∧
    ((∀ rs, collab.socials = some rs → pyStrip (rs.website.getD "") = "") →
       (buildProfile company0 domain0 collab now lat).website =
         (if pyLStripChars ['.'] (pyStrip (normalizeDomain (pyStrip domain0))) = "" then none
          else some ("https://" ++
            pyLStripChars ['.'] (pyStrip (normalizeDomain (pyStrip domain0)))))) ∧
    (∀ rs w0, collab.socials = some rs → rs.website = some w0 → pyStrip w0 ≠ "" →
       (buildProfile company0 domain0 collab now lat).website = some (pyStrip w0)) := by
  have hns := normalizeDomain_no_slash (pyStrip domain0)
  set nd := normalizeDomain (pyStrip domain0) with hnd
  have hweb : (buildProfile company0 domain0 collab now lat).website =
      ensureWebsite nd ((safeCall collab.socials (defaultSocials nd)).website) :=
    buildProfile_website company0 domain0 collab now lat
  refine ⟨?_, ?_, ?_⟩
  · intro hd
    rw [hweb]
    cases hcs : collab.socials with
    | none =>
        simp only [safeCall, Option.getD_none, defaultSocials]
        rw [ensureWebsite_synth nd hns, if_neg hd]
        exact ⟨_, rfl, https_append_ne_empty _⟩
    | some rs =>
        simp only [safeCall, Option.getD_some]
        show ∃ w, ensureWebsite nd rs.website = some w ∧ w ≠ ""
        rw [ensureWebsite_cases nd rs.website hns]
        by_cases hw : pyStrip (rs.website.getD "") = ""
        · rw [if_pos hw, if_neg hd]
          exact ⟨_, rfl, https_append_ne_empty _⟩
        · rw [if_neg hw]
          exact ⟨_, rfl, hw⟩
  · intro hblank
    rw [hweb]
    cases hcs : collab.socials with
    | none =>
        simp only [safeCall, Option.getD_none, defaultSocials]
        exact ensureWebsite_synth nd hns
    | some rs =>
        have hw := hblank rs hcs
        simp only [safeCall, Option.getD_some]
        show ensureWebsite nd rs.website = _
        rw [ensureWebsite_cases nd rs.website hns, if_pos hw]
  · intro rs w0 hcs hw0 hne
    rw [hweb, hcs]
    simp only [safeCall, Option.getD_some]
    show ensureWebsite nd rs.website = _
    rw [hw0]
    exact ensureWebsite_of_discovered hne

/-- Witness for C4 (amended) at a concrete input: with a known domain and an
all-failing boundary, the website is synthesized as `https://example.com`. -/
theorem website_guarantee_witness :
    (buildProfile "" "Example.com" failCollab "2026-01-01" 0).website =
      some "https://example.com" := by
  have h := (website_guarantee "" "Example.com" failCollab "2026-01-01" 0).2.1
    (fun rs hrs => by cases hrs)
  rw [h]
  decide

/-! ## C3: category classification -/

/-- C3 counterexample: with no keyword rule matching, a classifier answer of
`"Real Estate"` — one of the eight fixed labels — is collapsed to `"Other"`,
because the code keeps only the first whitespace token of the answer; this
contradicts the claim that any answer in the fixed label set is returned
as-is. -/
theorem categorize_real_estate_collapsed :
    categorize "Zzz" "qq.zz" [] (some "Real Estate") none false = "Other" ∧
      "Real Estate" ∈ allowedCats ∧
      catRules.find? (fun r => r.2.any (fun k => pyInStr k
        (pyLower (String.intercalate " " (["Zzz", "qq.zz"] ++
          ([] : List (String × String)).map Prod.fst))))) = none :=
  ⟨by decide, by decide, by decide⟩

/-- C3 (amended): the classifier tests the lowercase concatenation of name,
domain and social-platform keys against the ordered rule table and returns
the first matching category; when no rule matches, the collaborator's answer
is reduced to its first whitespace token stripped of `,.;`, and that token
is returned exactly when it is one of the eight fixed labels or `Other` —
any other token (hence also the multi-word label `Real Estate`, and e.g.
`Purple`) collapses to `Other`. -/
theorem categorize_amended (name domain : String) (links : List (String × String))
    (g l : Option String) (u : Bool) :
    (∀ cat, catRules.find? (fun r => r.2.any (fun k => pyInStr k
        (pyLower (String.intercalate " " ([name, domain] ++ links.map Prod.fst))))) =
          some cat →
      categorize name domain links g l u = cat.1) ∧
    (catRules.find? (fun r => r.2.any (fun k => pyInStr k
        (pyLower (String.intercalate " " ([name, domain] ++ links.map Prod.fst))))) =
          none →
      ∀ ans tok, g = some ans → firstTokenStripped ans = some tok →
        categorize name domain links g l u =
          (if allowedCats.contains tok then tok else "Other")) ∧
    categorize "Zzz" "qq.zz" [] (some "Purple") none false = "Other" := by
  refine ⟨?_, ?_, by decide⟩
  · intro cat hfind
    unfold categorize
    dsimp only
    rw [hfind]
  · intro hfind ans tok hg htok
    subst hg
    unfold categorize
    dsimp only
    rw [hfind, htok]

/-- Witness for C3 (amended): a single-word allowed answer with punctuation
is returned after token stripping. -/
theorem categorize_amended_witness :
    categorize "Zzz" "qq.zz" [] (some " Tech. ") none false = "Tech" := by
  have h := (categorize_amended "Zzz" "qq.zz" [] (some " Tech. ") none false).2.1
    (by decide) " Tech. " "Tech" rfl (by decide)
  rw [h]
  decide

/-! ## C6: address plausibility -/

theorem mem_wsSplitAux {c : Char} :
    ∀ (l acc w : List Char), w ∈ wsSplitAux l acc → c ∈ w → c ∈ l ∨ c ∈ acc := by
  intro l
  induction l with
  | nil =>
      intro acc w hw hc
      unfold wsSplitAux at hw
      by_cases ha : acc.isEmpty
      · rw [if_pos ha] at hw; cases hw
      · rw [if_neg ha] at hw
        rw [List.mem_singleton] at hw
        subst hw
        exact Or.inr (List.mem_reverse.mp hc)
  | cons x rest ih =>
      intro acc w hw hc
      unfold wsSplitAux at hw
      by_cases hx : isWsChar x
      · rw [if_pos hx] at hw
        by_cases ha : acc.isEmpty
        · rw [if_pos ha] at hw
          rcases ih [] w hw hc with h | h
          · exact Or.inl (List.mem_cons_of_mem _ h)
          · cases h
        · rw [if_neg ha] at hw
          rcases List.mem_cons.mp hw with rfl | hw2
          · exact Or.inr (List.mem_reverse.mp hc)
          · rcases ih [] w hw2 hc with h | h
            · exact Or.inl (List.mem_cons_of_mem _ h)
            · cases h
      · rw [if_neg hx] at hw
        rcases ih (x :: acc) w hw hc with h | h
        · exact Or.inl (List.mem_cons_of_mem _ h)
        · rcases List.mem_cons.mp h with rfl | h2
          · exact Or.inl (List.mem_cons_self _ _)
          · exact Or.inr h2

theorem mem_joinWords {c : Char} :
    ∀ (ws : List (List Char)), c ∈ joinWords ws → (∃ w ∈ ws, c ∈ w) ∨ c = ' ' := by
  intro ws
  induction ws with
  | nil => intro h; cases h
  | cons w rest ih =>
      cases rest with
      | nil =>
          intro h
          exact Or.inl ⟨w, List.mem_singleton.mpr rfl, h⟩
      | cons w2 rest2 =>
          intro h
          unfold joinWords at h
          rcases List.mem_append.mp h with h1 | h2
          · exact Or.inl ⟨w, List.mem_cons_self _ _, h1⟩
          · rcases List.mem_cons.mp h2 with rfl | h3
            · exact Or.inr rfl
            · rcases ih h3 with ⟨w3, hw3, hc3⟩ | hsp
              · exact Or.inl ⟨w3, List.mem_cons_of_mem _ hw3, hc3⟩
              · exact Or.inr hsp

/-- Characters of the whitespace-collapsed string come from the original
string or are the inserted single spaces. -/
theorem mem_collapseWs {s : String} {c : Char} (h : c ∈ (collapseWs s).data) :
    c ∈ s.data ∨ c = ' ' := by
  unfold collapseWs at h
  rcases mem_joinWords _ h with ⟨w, hw, hc⟩ | hsp
  · rcases mem_wsSplitAux s.data [] w hw hc with h1 | h1
    · exact Or.inl h1
    · cases h1
  · exact Or.inr hsp

/-- C6 counterexample: an address string whose non-Latin character ratio is
exactly 25% — not strictly below — is accepted by the plausibility
predicate, contradicting the claim's "ratio below 25%" necessary
condition (`"À"`, `"é"`, `"è"`, `"ì"` are 4 non-Latin characters among
16). -/
theorem address_ratio_boundary :
    isPlausibleAddress "12 Àéèì Rd, Abcd" = true ∧
      4 * nonLatinCount (pyStrip (pyStripChars [',', ' ']
          (collapseWs "12 Àéèì Rd, Abcd"))).data =
        (pyStrip (pyStripChars [',', ' '] (collapseWs "12 Àéèì Rd, Abcd"))).length :=
  ⟨by decide, by decide⟩

/-- C6 (amended): acceptance by the address plausibility predicate requires
— on the normalized form — length 10 to 200, at least two non-empty
comma-separated segments, at least one digit, no blocklisted noise token, a
non-Latin character ratio of at most 25% (the strict "below" of the original
claim fails at the boundary), and a trailing segment resembling a region or
country token (at least three characters, or a known country code); the
claim's concrete examples hold, and every string without a digit is
rejected. -/
theorem address_plausible_amended :
    (∀ s, isPlausibleAddress s = true →
      let t := pyStrip (pyStripChars [',', ' '] (collapseWs s))
      let parts := ((splitOnChar ',' t).map pyStrip).filter (· ≠ "")
      10 ≤ t.length ∧ t.length ≤ 200 ∧ 2 ≤ parts.length ∧
      t.data.any Char.isDigit = true ∧
      (∀ b ∈ badAddrTokens, pyInStr b (pyLower t) = false) ∧
      4 * nonLatinCount t.data ≤ t.length ∧
      (3 ≤ (parts.getLastD "").length ∨
        (["US", "USA", "UK", "UAE", "EU"].contains (pyUpper (parts.getLastD ""))) = true)) ∧
    isPlausibleAddress "123 Main St, Springfield, IL 62704" = true ∧
    isPlausibleAddress "Cookie Policy, Terms" = false ∧
    (∀ s, (∀ c ∈ s.data, c.isDigit = false) → isPlausibleAddress s = false) := by
  have main : ∀ s, isPlausibleAddress s = true →
      let t := pyStrip (pyStripChars [',', ' '] (collapseWs s))
      let parts := ((splitOnChar ',' t).map pyStrip).filter (· ≠ "")
      10 ≤ t.length ∧ t.length ≤ 200 ∧ 2 ≤ parts.length ∧
      t.data.any Char.isDigit = true ∧
      (∀ b ∈ badAddrTokens, pyInStr b (pyLower t) = false) ∧
      4 * nonLatinCount t.data ≤ t.length ∧
      (3 ≤ (parts.getLastD "").length ∨
        (["US", "USA", "UK", "UAE", "EU"].contains (pyUpper (parts.getLastD ""))) = true) := by
    intro s h
    dsimp only
    unfold isPlausibleAddress at h
    dsimp only at h
    by_cases h0 : s = ""
    · rw [if_pos h0] at h; cases h
    rw [if_neg h0] at h
    set t := pyStrip (pyStripChars [',', ' '] (collapseWs s)) with ht
    by_cases h1 : t.length < 10 ∨ 200 < t.length
    · rw [if_pos h1] at h; cases h
    rw [if_neg h1] at h
    by_cases h2 : pyInStr ";" t = true
    · rw [if_pos h2] at h; cases h
    rw [if_neg h2] at h
    by_cases h3 : badAddrTokens.any (fun b => pyInStr b (pyLower t)) = true
    · rw [if_pos h3] at h; cases h
    rw [if_neg h3] at h
    by_cases h4 : ¬ pyInStr "," t = true
    · rw [if_pos h4] at h; cases h
    rw [if_neg h4] at h
    by_cases h5 : ¬ t.data.any Char.isDigit = true
    · rw [if_pos h5] at h; cases h
    rw [if_neg h5] at h
    set parts := ((splitOnChar ',' t).map pyStrip).filter (· ≠ "") with hparts
    by_cases h6 : parts.length < 2
    · rw [if_pos h6] at h; cases h
    rw [if_neg h6] at h
    by_cases h7 : (parts.getLastD "").length < 3 ∧
        ¬ (["US", "USA", "UK", "UAE", "EU"].contains (pyUpper (parts.getLastD ""))) = true
    · rw [if_pos h7] at h; cases h
    rw [if_neg h7] at h
    by_cases h8 : t.length < 4 * nonLatinCount t.data
    · rw [if_pos h8] at h; cases h
    rw [if_neg h8] at h
    refine ⟨by omega, by omega, by omega, not_not.mp h5, ?_, by omega, ?_⟩
    · intro b hb
      rw [Bool.eq_false_iff]
      intro hbt
      exact absurd (List.any_eq_true.mpr ⟨b, hb, hbt⟩) (by simpa using h3)
    · rcases not_and_or.mp h7 with h7a | h7b
      · exact Or.inl (by omega)
      · exact Or.inr (not_not.mp h7b)
  refine ⟨main, by decide, by decide, ?_⟩
  · intro s hnd
    cases hb : isPlausibleAddress s with
    | false => rfl
    | true =>
        have hdig := (main s hb).2.2.2.1
        rw [List.any_eq_true] at hdig
        obtain ⟨c, hc, hcd⟩ := hdig
        have hmem := mem_stripBothL (mem_stripBothL hc)
        rcases mem_collapseWs hmem with hs | hsp
        · exact absurd hcd (by simp [hnd c hs])
        · subst hsp
          cases hcd

/-- Witness for C6 (amended) at the claim's accepted example. -/
theorem address_plausible_amended_witness :
    10 ≤ (pyStrip (pyStripChars [',', ' ']
        (collapseWs "123 Main St, Springfield, IL 62704"))).length ∧
      isPlausibleAddress "x, y" = false := by
  constructor
  · have h := address_plausible_amended.1 "123 Main St, Springfield, IL 62704" (by decide)
    dsimp only at h
    exact h.1
  · exact address_plausible_amended.2.2.2 "x, y" (by decide)

/-! ## C2: contact e-mail invariants -/

theorem mem_pySortedSet {l : List String} {e : String} (h : e ∈ pySortedSet l) :
    e ∈ l := by
  unfold pySortedSet at h
  exact List.mem_dedup.mp ((List.perm_insertionSort _ _).mem_iff.mp h)

theorem nodup_pySortedSet (l : List String) : (pySortedSet l).Nodup :=
  ((List.perm_insertionSort _ _).symm).nodup (List.nodup_dedup l)

theorem pyLower_fixed_of_all {s : String} (h : ∀ c ∈ s.data, lowerChar c = c) :
    pyLower s = s := by
  unfold pyLower
  cases s with
  | mk l => exact congrArg String.mk ((List.map_congr_left h).trans (List.map_id l))

theorem pyLower_append (a b : String) : pyLower (a ++ b) = pyLower a ++ pyLower b := by
  unfold pyLower
  rw [show (a ++ b).data = a.data ++ b.data from String.data_append a b, List.map_append]
  rfl

/-- Characters of a normalized domain are characters of the lower-cased
stripped input. -/
theorem mem_normalizeDomain {s : String} {c : Char}
    (h : c ∈ (normalizeDomain s).data) : c ∈ (pyLower (pyStrip s)).data := by
  unfold normalizeDomain at h
  dsimp only at h
  have h2 := mem_pyLStripChars h
  have hmid : ∀ (x : String), c ∈ (if pyInStr "/" x then
      String.mk (x.data.takeWhile (· ≠ '/')) else x).data → c ∈ x.data := by
    intro x hx
    by_cases hc : pyInStr "/" x
    · rw [if_pos hc] at hx
      exact List.Sublist.subset (List.takeWhile_sublist _) hx
    · rwa [if_neg hc] at hx
  have h3 := hmid _ h2
  by_cases hh : pyStartsWith "http://" (pyLower (pyStrip s))
  · rw [if_pos hh] at h3
    exact List.drop_subset _ _ h3
  · rw [if_neg hh] at h3
    by_cases hh2 : pyStartsWith "https://" (pyLower (pyStrip s))
    · rw [if_pos hh2] at h3
      exact List.drop_subset _ _ h3
    · rwa [if_neg hh2] at h3

theorem lowerChar_fixed_of_mem_pyLower {s : String} {c : Char}
    (h : c ∈ (pyLower s).data) : lowerChar c = c := by
  unfold pyLower at h
  rw [List.mem_map] at h
  obtain ⟨a, _, rfl⟩ := h
  exact lowerChar_idem a

theorem normalizeDomain_lower_fixed (s : String) :
    pyLower (normalizeDomain s) = normalizeDomain s :=
  pyLower_fixed_of_all (fun c hc => lowerChar_fixed_of_mem_pyLower (mem_normalizeDomain hc))

/-- The synthetic `info@<domain>` e-mail is lower-case. -/
theorem infoEmail_lower_fixed (s : String) :
    pyLower ("info@" ++ normalizeDomain s) = "info@" ++ normalizeDomain s := by
  rw [pyLower_append, normalizeDomain_lower_fixed]
  rw [show pyLower "info@" = "info@" from by decide]

/-- Unfolding of a successful `_same_brand_email` test into the claim's
suffix/prefix disjunction. -/
theorem sameBrandEmail_elim {e dfc : String} (h : sameBrandEmail e dfc = true) :
    ∃ host, emailHost e = some host ∧
      ((normalizeDomain dfc ≠ "" ∧ pyEndsWith (normalizeDomain dfc) host = true) ∨
       (brandFromDomain (normalizeDomain dfc) ≠ "" ∧
         pyStartsWith (brandFromDomain (normalizeDomain dfc)) host = true)) := by
  unfold sameBrandEmail at h
  cases hh : emailHost e with
  | none => rw [hh] at h; cases h
  | some host =>
      rw [hh] at h
      dsimp only at h
      refine ⟨host, rfl, ?_⟩
      by_cases hdc : dfc ≠ ""
      · rw [if_pos hdc] at h
        rw [Bool.or_eq_true] at h
        rcases h with h1 | h1 <;> rw [Bool.and_eq_true] at h1
        · exact Or.inl ⟨of_decide_eq_true h1.1, h1.2⟩
        · exact Or.inr ⟨of_decide_eq_true h1.1, h1.2⟩
      · rw [if_neg hdc] at h
        have hb : brandFromDomain "" = "" := by decide
        rw [hb] at h
        simp at h

/-- C2: over every whitespace-free candidate multiset (the e-mail regex the
code gathers candidates with admits no whitespace), every domain and
website: the e-mails returned by `get_contacts` are lower-case and
deduplicated case-insensitively; each returned e-mail is either the
synthetic `info@<domain>` or has a host that ends with the normalized target
domain or starts with the brand token; when the stripped domain is known the
result is never empty, and when the brand filter leaves nothing it is
exactly the synthetic e-mail.  The final conjunct is the claim's concrete
example. -/
theorem contacts_email_invariants :
    (∀ raw domain website out dfc,
      (∀ e ∈ raw, ∀ c ∈ e.data, isWsChar c = false) →
      getContactsEmails raw domain website = some out →
      domForCheck domain website = some dfc →
      ((∀ e ∈ out, pyLower e = e) ∧
       (out.map pyLower).Nodup ∧
       (∀ e ∈ out, e = "info@" ++ normalizeDomain (pyStrip domain) ∨
         ∃ host, emailHost e = some host ∧
           ((normalizeDomain dfc ≠ "" ∧ pyEndsWith (normalizeDomain dfc) host = true) ∨
            (brandFromDomain (normalizeDomain dfc) ≠ "" ∧
              pyStartsWith (brandFromDomain (normalizeDomain dfc)) host = true))) ∧
       (pyStrip domain ≠ "" → out ≠ []) ∧
       (pyStrip domain ≠ "" → (∀ e ∈ raw, sameBrandEmail (pyLower e) dfc = false) →
         out = ["info@" ++ normalizeDomain (pyStrip domain)]))) ∧
    getContactsEmails ["A@Example.com", "a@example.com"] "example.com" "" =
      some ["a@example.com"] := by
  constructor
  · intro raw domain website out dfc hws hget hdfc
    unfold getContactsEmails at hget
    rw [hdfc] at hget
    dsimp only at hget
    injection hget with hout
    subst hout
    set collected := (raw.map pyLower).dedup with hcol
    set filtered := collected.filter (fun e => sameBrandEmail e dfc) with hfil
    set base := pySortedSet (filtered.map (fun e => pyLower (pyStrip e))) with hbase
    have hbase_elem : ∀ e ∈ base, e ∈ filtered ∧ pyLower e = e := by
      intro e he
      have h1 := mem_pySortedSet he
      rw [List.mem_map] at h1
      obtain ⟨x, hx, rfl⟩ := h1
      have hxc : x ∈ collected := List.mem_of_mem_filter hx
      have hxl : ∃ r ∈ raw, pyLower r = x := by
        rw [hcol, List.mem_dedup, List.mem_map] at hxc
        exact hxc
      obtain ⟨r, hr, hrx⟩ := hxl
      have hxws : ∀ c ∈ x.data, isWsChar c = false := by
        rw [← hrx]
        exact pyLower_ws_free (hws r hr)
      have hxfix : pyLower x = x := by rw [← hrx, pyLower_idem]
      rw [pyStrip_eq_self hxws, hxfix]
      exact ⟨hx, hxfix⟩
    by_cases hc : pyStrip domain ≠ "" ∧ base = []
    · rw [if_pos hc]
      refine ⟨?_, ?_, ?_, ?_, ?_⟩
      · intro e he
        rw [List.mem_singleton] at he
        subst he
        exact infoEmail_lower_fixed _
      · simp
      · intro e he
        rw [List.mem_singleton] at he
        exact Or.inl he
      · intro _ hne
        cases hne
      · intro _ _
        rfl
    · rw [if_neg hc]
      refine ⟨?_, ?_, ?_, ?_, ?_⟩
      · intro e he
        exact (hbase_elem e he).2
      · have hmap : base.map pyLower = base := by
          have h1 : base.map pyLower = base.map id :=
            List.map_congr_left (fun e he => (hbase_elem e he).2)
          rw [h1, List.map_id]
        rw [hmap]
        exact nodup_pySortedSet _
      · intro e he
        have hxf := (hbase_elem e he).1
        rw [hfil] at hxf
        have hp := (List.mem_filter.mp hxf).2
        exact Or.inr (sameBrandEmail_elim hp)
      · intro hd hne
        exact hc ⟨hd, hne⟩
      · intro hd hall
        exfalso
        have hfil0 : filtered = [] := by
          rw [hfil]
          rw [List.filter_eq_nil_iff]
          intro x hxc
          rw [hcol, List.mem_dedup, List.mem_map] at hxc
          obtain ⟨r, hr, hrx⟩ := hxc
          rw [← hrx]
          simp [hall r hr]
        have hb0 : base = [] := by
          rw [hbase, hfil0]
          rfl
        exact hc ⟨hd, hb0⟩
  · decide

/-- Witness for C2 at the claim's concrete example. -/
theorem contacts_email_invariants_witness :
    (∀ e ∈ ["a@example.com"], pyLower e = e) ∧
      ((["a@example.com"] : List String).map pyLower).Nodup := by
  have h := contacts_email_invariants.1 ["A@Example.com", "a@example.com"]
    "example.com" "" ["a@example.com"] "example.com" (by decide) (by decide) (by decide)
  exact ⟨h.1, h.2.1⟩

/-! ## C5 support: whitespace-normalized titles -/

theorem wsSplitAux_no_ws :
    ∀ (l acc : List Char), (∀ c ∈ acc, isWsChar c = false) →
      ∀ w ∈ wsSplitAux l acc, ∀ c ∈ w, isWsChar c = false := by
  intro l
  induction l with
  | nil =>
      intro acc hacc w hw c hc
      unfold wsSplitAux at hw
      by_cases ha : acc.isEmpty
      · rw [if_pos ha] at hw; cases hw
      · rw [if_neg ha] at hw
        rw [List.mem_singleton] at hw
        subst hw
        exact hacc c (List.mem_reverse.mp hc)
  | cons x rest ih =>
      intro acc hacc w hw c hc
      unfold wsSplitAux at hw
      by_cases hx : isWsChar x
      · rw [if_pos hx] at hw
        by_cases ha : acc.isEmpty
        · rw [if_pos ha] at hw
          exact ih [] (by intro d hd; cases hd) w hw c hc
        · rw [if_neg ha] at hw
          rcases List.mem_cons.mp hw with rfl | hw2
          · exact hacc c (List.mem_reverse.mp hc)
          · exact ih [] (by intro d hd; cases hd) w hw2 c hc
      · rw [if_neg hx] at hw
        refine ih (x :: acc) ?_ w hw c hc
        intro d hd
        rcases List.mem_cons.mp hd with rfl | h2
        · exact Bool.eq_false_iff.mpr hx
        · exact hacc d h2

/-- The only whitespace character a collapsed string can contain is the
single space the join inserts. -/
theorem collapseWs_ws_space {s : String} {c : Char} (h : c ∈ (collapseWs s).data)
    (hws : isWsChar c = true) : c = ' ' := by
  unfold collapseWs at h
  rcases mem_joinWords _ h with ⟨w, hw, hc⟩ | hsp
  · have h2 := wsSplitAux_no_ws s.data [] (by intro d hd; cases hd) w hw c hc
    rw [h2] at hws
    cases hws
  · exact hsp

/-- The trailing-strip result is a prefix of the input. -/
theorem stripTrailL_isPre (p : Char → Bool) (l : List Char) :
    ∃ t, l = stripTrailL p l ++ t := by
  obtain ⟨t, ht⟩ := (List.dropWhile_suffix p : l.reverse.dropWhile p <:+ l.reverse)
  refine ⟨t.reverse, ?_⟩
  have h2 := congrArg List.reverse ht
  rw [List.reverse_append, List.reverse_reverse] at h2
  exact h2.symm

theorem head?_stripTrailL {p : Char → Bool} {l : List Char} {c : Char}
    (h : (stripTrailL p l).head? = some c) : l.head? = some c := by
  obtain ⟨t, ht⟩ := stripTrailL_isPre p l
  rw [ht]
  cases hst : stripTrailL p l with
  | nil => rw [hst] at h; simp at h
  | cons a as =>
      rw [hst] at h
      rw [List.head?_cons] at h
      rw [List.cons_append, List.head?_cons]
      exact h

theorem head?_stripBothL {p : Char → Bool} {l : List Char} {c : Char}
    (h : (stripBothL p l).head? = some c) : p c = false := by
  unfold stripBothL at h
  have h2 := head?_stripTrailL h
  unfold stripLeadL at h2
  exact dropWhile_head_not h2

theorem getLast?_stripBothL {p : Char → Bool} {l : List Char} {c : Char}
    (h : (stripBothL p l).getLast? = some c) : p c = false := by
  unfold stripBothL at h
  exact getLast?_stripTrailL h

theorem head?_take_succ {α : Type} (l : List α) (n : Nat) :
    (l.take (n + 1)).head? = l.head? := by
  cases l <;> rfl

/-- Both ends of the strip-chars stage of `_normalize_title` are
non-whitespace: the collapse stage leaves only plain spaces as whitespace
and the strip set contains the space. -/
theorem normTitle_ends_no_ws {c : Char} (t0 : String)
    (h : (pyStripChars [' ', ':', ',', '-', '|', '–', '—'] (collapseWs t0)).data.head? = some c ∨
      (pyStripChars [' ', ':', ',', '-', '|', '–', '—'] (collapseWs t0)).data.getLast? = some c) :
    isWsChar c = false := by
  have hcs : (([' ', ':', ',', '-', '|', '–', '—'] : List Char).contains c) = false := by
    rcases h with h | h
    · exact head?_stripBothL h
    · exact getLast?_stripBothL h
  have hmem : c ∈ (collapseWs t0).data := by
    rcases h with h | h
    · exact mem_stripBothL (head?_mem h)
    · exact mem_stripBothL (getLast?_mem h)
  cases hb : isWsChar c with
  | false => rfl
  | true =>
      have hsp := collapseWs_ws_space hmem hb
      rw [hsp] at hcs
      exact absurd hcs (by decide)

theorem normTitle_core_strip (t0 : String) :
    pyStrip (pyStripChars [' ', ':', ',', '-', '|', '–', '—'] (collapseWs t0)) =
      pyStripChars [' ', ':', ',', '-', '|', '–', '—'] (collapseWs t0) := by
  apply pyStrip_eq_self_of_ends
  · intro c hc
    exact normTitle_ends_no_ws t0 (Or.inl hc)
  · intro c hc
    exact normTitle_ends_no_ws t0 (Or.inr hc)

/-- Every title `_normalize_title` returns survives a further `strip()`
unchanged. -/
theorem normTitle_strip_fixed (t : Option String) :
    pyStrip ((normTitle t).getD "") = (normTitle t).getD "" := by
  match t with
  | none => rfl
  | some t0 =>
      simp only [normTitle]
      by_cases h0 : t0 = ""
      · rw [if_pos h0]
        rfl
      · rw [if_neg h0]
        by_cases hlong :
            120 < (pyStripChars [' ', ':', ',', '-', '|', '–', '—'] (collapseWs t0)).length
        · rw [if_pos hlong]
          by_cases h2 : (⟨stripTrailL isWsChar
              ((pyStripChars [' ', ':', ',', '-', '|', '–', '—']
                (collapseWs t0)).data.take 120)⟩ : String) = ""
          · rw [if_pos h2]
            rfl
          · rw [if_neg h2]
            rw [Option.getD_some]
            apply pyStrip_eq_self_of_ends
            · intro c hc
              have hc2 : (stripTrailL isWsChar
                  ((pyStripChars [' ', ':', ',', '-', '|', '–', '—']
                    (collapseWs t0)).data.take 120)).head? = some c := hc
              have hc3 := head?_stripTrailL hc2
              rw [show (120 : Nat) = 119 + 1 from rfl, head?_take_succ] at hc3
              exact normTitle_ends_no_ws t0 (Or.inl hc3)
            · intro c hc
              have hc2 : (stripTrailL isWsChar
                  ((pyStripChars [' ', ':', ',', '-', '|', '–', '—']
                    (collapseWs t0)).data.take 120)).getLast? = some c := hc
              exact getLast?_stripTrailL hc2
        · rw [if_neg hlong]
          by_cases h2 : pyStripChars [' ', ':', ',', '-', '|', '–', '—'] (collapseWs t0) = ""
          · rw [if_pos h2]
            rfl
          · rw [if_neg h2]
            rw [Option.getD_some]
            exact normTitle_core_strip t0

/-! ## C5 support: the sanitizing loop and the extractor pipeline -/

theorem optStr_getD (t0 : String) : (if t0 = "" then none else some t0).getD "" = t0 := by
  by_cases h : t0 = ""
  · rw [if_pos h, h]
    rfl
  · rw [if_neg h]
    rfl

theorem if_ne_empty_self (s : String) : (if s ≠ "" then s else "") = s := by
  by_cases h : s = ""
  · rw [if_neg (not_not_intro h)]
    exact h.symm
  · rw [if_pos h]

theorem execKey_mk (n t0 : String) (li : Option String) (r : Int) :
    execKey ⟨n, if t0 = "" then none else some t0, li, r⟩ = (pyLower n, pyLower t0) := by
  unfold execKey
  dsimp only
  rw [optStr_getD]

/-- The sanitizing loop of `_sanitize_executives`: kept entries have a
non-empty name, their key avoids the accumulator, and the output is
key-distinct. -/
theorem sanitizeExecsAux_spec :
    ∀ (l : List LooseExec) (seen : List (String × String)),
      (∀ e ∈ sanitizeExecsAux l seen,
        e.name ≠ "" ∧ seen.contains (execKey e) = false) ∧
      (sanitizeExecsAux l seen).Pairwise (fun a b => execKey a ≠ execKey b) := by
  intro l
  induction l with
  | nil =>
      intro seen
      constructor
      · intro e he
        simp [sanitizeExecsAux] at he
      · unfold sanitizeExecsAux
        exact List.Pairwise.nil
  | cons e rest ih =>
      intro seen
      unfold sanitizeExecsAux
      dsimp only
      by_cases hn : pyStrip e.name = ""
      · rw [if_pos hn]
        exact ih seen
      · rw [if_neg hn]
        by_cases hcon : List.contains seen (pyLower (pyStrip e.name),
            pyLower (pyStrip (if e.jobTitle ≠ "" then e.jobTitle else e.title))) = true
        · rw [if_pos hcon]
          exact ih seen
        · rw [if_neg hcon]
          obtain ⟨ihAll, ihPw⟩ := ih ((pyLower (pyStrip e.name),
            pyLower (pyStrip (if e.jobTitle ≠ "" then e.jobTitle else e.title))) :: seen)
          constructor
          · intro e' he'
            rcases List.mem_cons.mp he' with rfl | h2
            · refine ⟨hn, ?_⟩
              rw [execKey_mk]
              exact Bool.eq_false_iff.mpr hcon
            · have h3 := ihAll e' h2
              refine ⟨h3.1, ?_⟩
              have h4 := h3.2
              rw [List.contains_cons] at h4
              exact (Bool.or_eq_false_iff.mp h4).2
          · refine List.Pairwise.cons ?_ ihPw
            intro e' he'
            have h4 := (ihAll e' he').2
            rw [List.contains_cons] at h4
            have h5 := (Bool.or_eq_false_iff.mp h4).1
            have h6 := beq_eq_false_iff_ne.mp h5
            rw [execKey_mk]
            exact fun heq => h6 heq.symm

/-- Rank propagation through the sanitizing loop: when each input either
carries no rank or carries exactly the table rank of its effective title,
every kept entry's rank is the table rank of its kept title. -/
theorem sanitizeExecsAux_rank :
    ∀ (l : List LooseExec) (seen : List (String × String)),
      (∀ x ∈ l, x.rank = none ∨
        x.rank = some (rankOf (pyStrip (if x.jobTitle ≠ "" then x.jobTitle else x.title)))) →
      ∀ e ∈ sanitizeExecsAux l seen, e.rank = rankOf (e.jobTitle.getD "") := by
  intro l
  induction l with
  | nil =>
      intro seen _ e he
      simp [sanitizeExecsAux] at he
  | cons x rest ih =>
      intro seen hl e he
      unfold sanitizeExecsAux at he
      dsimp only at he
      by_cases hn : pyStrip x.name = ""
      · rw [if_pos hn] at he
        exact ih seen (fun y hy => hl y (List.mem_cons_of_mem x hy)) e he
      · rw [if_neg hn] at he
        by_cases hcon : List.contains seen (pyLower (pyStrip x.name),
            pyLower (pyStrip (if x.jobTitle ≠ "" then x.jobTitle else x.title))) = true
        · rw [if_pos hcon] at he
          exact ih seen (fun y hy => hl y (List.mem_cons_of_mem x hy)) e he
        · rw [if_neg hcon] at he
          rcases List.mem_cons.mp he with rfl | h2
          · dsimp only
            rw [optStr_getD]
            rcases hl x (List.mem_cons_self x rest) with hr | hr
            · rw [hr]
            · rw [hr]
          · exact ih _ (fun y hy => hl y (List.mem_cons_of_mem x hy)) e h2

theorem sanitizeExecutives_sorted (l : List LooseExec) :
    (sanitizeExecutives l).Sorted (fun a b => a.rank ≤ b.rank) := by
  unfold sanitizeExecutives
  exact List.Pairwise.sublist (List.take_sublist 12 _)
    (List.sorted_insertionSort _ _)

theorem sanitizeExecutives_len (l : List LooseExec) :
    (sanitizeExecutives l).length ≤ 12 := by
  unfold sanitizeExecutives
  exact List.length_take_le 12 _

theorem mem_sanitizeExecutives {l : List LooseExec} {e : CoreExec}
    (he : e ∈ sanitizeExecutives l) : e ∈ sanitizeExecsAux l [] := by
  unfold sanitizeExecutives at he
  exact (List.perm_insertionSort _ _).mem_iff.mp ((List.take_sublist 12 _).subset he)

theorem sanitizeExecutives_names (l : List LooseExec) :
    ∀ e ∈ sanitizeExecutives l, e.name ≠ "" := by
  intro e he
  exact ((sanitizeExecsAux_spec l []).1 e (mem_sanitizeExecutives he)).1

theorem sanitizeExecutives_keys (l : List LooseExec) :
    (sanitizeExecutives l).Pairwise (fun a b => execKey a ≠ execKey b) := by
  unfold sanitizeExecutives
  have hperm := List.perm_insertionSort
    (fun a b : CoreExec => a.rank ≤ b.rank) (sanitizeExecsAux l [])
  have h2 := (List.Perm.pairwise_iff (fun hxy he => hxy he.symm) hperm).mpr
    ((sanitizeExecsAux_spec l []).2)
  exact List.Pairwise.sublist (List.take_sublist 12 _) h2

theorem uniqPeopleAux_jobTitle :
    ∀ (l : List RawPerson) (seen : List (String × String)) (q : RawPerson),
      q ∈ uniqPeopleAux l seen → ∃ t, q.jobTitle = normTitle t := by
  intro l
  induction l with
  | nil =>
      intro seen q hq
      simp [uniqPeopleAux] at hq
  | cons p rest ih =>
      intro seen q hq
      unfold uniqPeopleAux at hq
      dsimp only at hq
      by_cases hc : p.name ≠ "" ∧
          ¬ List.contains seen (pyLower p.name, pyLower (p.jobTitle.getD "")) = true
      · rw [if_pos hc] at hq
        rcases List.mem_cons.mp hq with rfl | h2
        · exact ⟨p.jobTitle, rfl⟩
        · exact ih _ q h2
      · rw [if_neg hc] at hq
        exact ih seen q hq

/-- Every person the executive extractor emits carries the table rank of
its normalized (hence strip-fixed) title. -/
theorem getExecutivesFinal_rank (fill : String → Option String)
    (gathered : List RawPerson) :
    ∀ p ∈ getExecutivesFinal fill gathered,
      p.rank = rankOf (p.jobTitle.getD "") ∧
      pyStrip (p.jobTitle.getD "") = p.jobTitle.getD "" := by
  intro p hp
  unfold getExecutivesFinal at hp
  dsimp only at hp
  have h2 := (List.take_sublist 12 _).subset hp
  have h3 := (List.perm_insertionSort _ _).mem_iff.mp h2
  rw [List.mem_map] at h3
  obtain ⟨q, hq, hqp⟩ := h3
  have hq2 : q ∈ uniqPeopleAux (fillLinked fill gathered) [] := by
    unfold uniqPeople at hq
    exact (List.take_sublist 12 _).subset hq
  obtain ⟨t, ht⟩ := uniqPeopleAux_jobTitle _ [] q hq2
  rw [← hqp]
  dsimp only
  refine ⟨rfl, ?_⟩
  rw [ht]
  exact normTitle_strip_fixed t

/-! ## C5: the executive ranking/deduplication/sorting contract -/

/-- C5: the executives list produced by the extractor and sanitized into the
profile has each entry's rank equal to the `_rank` table value of its title,
is deduplicated by the case-insensitive `(name, title)` key, is sorted
ascending by rank, and has at most 12 entries; `build_profile` stores exactly
the sanitizer's output; and for input titles CFO, CEO and Board Member the
output order is CEO, CFO, Board Member. -/
theorem executives_ranked (fill : String → Option String) (gathered : List RawPerson) :
    (∀ e ∈ sanitizeExecutives ((getExecutivesFinal fill gathered).map rankedToLoose),
        e.rank = rankOf (e.jobTitle.getD "")) ∧
    (sanitizeExecutives ((getExecutivesFinal fill gathered).map rankedToLoose)).Pairwise
        (fun a b => execKey a ≠ execKey b) ∧
    (sanitizeExecutives ((getExecutivesFinal fill gathered).map rankedToLoose)).Sorted
        (fun a b => a.rank ≤ b.rank) ∧
    (sanitizeExecutives ((getExecutivesFinal fill gathered).map rankedToLoose)).length ≤ 12 ∧
    (∀ (company domain : String) (collab : Collaborators) (l : List LooseExec)
        (now : String) (lat : Int),
        (buildProfile company domain { collab with execs := some l } now lat).executives =
          sanitizeExecutives l) ∧
    (sanitizeExecutives ((getExecutivesFinal (fun _ => none)
        [⟨"Ava Cruz", some "CFO", none⟩, ⟨"Bo Lee", some "CEO", none⟩,
         ⟨"Cy Dee", some "Board Member", none⟩]).map rankedToLoose)).map
        (fun e => (e.name, e.jobTitle.getD "")) =
      [("Bo Lee", "CEO"), ("Ava Cruz", "CFO"), ("Cy Dee", "Board Member")] := by
  refine ⟨?_, sanitizeExecutives_keys _, sanitizeExecutives_sorted _,
    sanitizeExecutives_len _, ?_, ?_⟩
  · intro e he
    refine sanitizeExecsAux_rank _ [] ?_ e (mem_sanitizeExecutives he)
    intro x hx
    rw [List.mem_map] at hx
    obtain ⟨p, hp, hpx⟩ := hx
    right
    rw [← hpx]
    dsimp only [rankedToLoose]
    obtain ⟨hr, hs⟩ := getExecutivesFinal_rank fill gathered p hp
    rw [if_ne_empty_self, hs, hr]
  · intro company domain collab l now lat
    rfl
  · decide

/-! ## C7 support: the posts cascade and sanitizer -/

theorem postValid_none {it : RawFeedItem}
    (h : pyStrip it.title = "" ∨ pyStrip it.link = "") (pub : String) :
    (if pyStrip it.title ≠ "" ∧ pyStrip it.link ≠ "" then
      some (PostItem.mk (pyStrip it.title) (pyStrip it.link) pub) else none) = none := by
  rw [if_neg]
  intro hc
  rcases h with h | h
  · exact hc.1 h
  · exact hc.2 h

theorem fetchFeedItems_nil {es : List RawFeedItem}
    (h : ∀ it ∈ es, pyStrip it.title = "" ∨ pyStrip it.link = "") :
    fetchFeedItems es = [] := by
  unfold fetchFeedItems
  apply List.filterMap_eq_nil_iff.mpr
  intro it hit
  dsimp only
  exact postValid_none (h it ((List.take_sublist 6 es).subset hit)) _

theorem newsPassItems_nil {raw : List RawFeedItem}
    (h : ∀ it ∈ raw, pyStrip it.title = "" ∨ pyStrip it.link = "") :
    newsPassItems raw = [] := by
  unfold newsPassItems
  have h0 : List.filterMap (fun it : RawFeedItem =>
      let title := pyStrip it.title
      let link := pyStrip it.link
      if title ≠ "" ∧ link ≠ "" then some (PostItem.mk title link (pyStrip it.published))
      else none) raw = [] := by
    apply List.filterMap_eq_nil_iff.mpr
    intro it hit
    dsimp only
    exact postValid_none (h it hit) _
  rw [h0]
  rfl

theorem webPassItems_nil {raw : List RawFeedItem}
    (h : ∀ it ∈ raw, pyStrip it.title = "" ∨ pyStrip it.link = "") :
    webPassItems raw = [] := by
  unfold webPassItems
  have h0 : List.filterMap (fun it : RawFeedItem =>
      let title := pyStrip it.title
      let link := pyStrip it.link
      if title ≠ "" ∧ link ≠ "" then some (PostItem.mk title link it.published)
      else none) raw = [] := by
    apply List.filterMap_eq_nil_iff.mpr
    intro it hit
    dsimp only
    exact postValid_none (h it hit) _
  rw [h0]
  rfl

theorem feedLoopAux_len :
    ∀ (feeds : List (List RawFeedItem)) (acc : List PostItem),
      acc.length ≤ 3 → (feedLoopAux feeds acc).length ≤ 3 := by
  intro feeds
  induction feeds with
  | nil =>
      intro acc h
      unfold feedLoopAux
      exact h
  | cons es rest ih =>
      intro acc h
      unfold feedLoopAux
      dsimp only
      by_cases hlen : 3 ≤ (acc ++ fetchFeedItems es).length
      · rw [if_pos hlen]
        exact List.length_take_le 3 _
      · rw [if_neg hlen]
        exact ih _ (by omega)

theorem feedLoopAux_nil :
    ∀ (feeds : List (List RawFeedItem)),
      (∀ es ∈ feeds, fetchFeedItems es = []) → feedLoopAux feeds [] = [] := by
  intro feeds
  induction feeds with
  | nil =>
      intro _
      rfl
  | cons es rest ih =>
      intro h
      unfold feedLoopAux
      dsimp only
      rw [h es (List.mem_cons_self es rest), List.append_nil]
      rw [if_neg (by decide : ¬(3 ≤ ([] : List PostItem).length))]
      exact ih (fun y hy => h y (List.mem_cons_of_mem es hy))

theorem pullPosts_len (feeds : List (List RawFeedItem))
    (news web : String → List RawFeedItem) (company domain website : String) :
    (pullPosts feeds news web company domain website).length ≤ 3 := by
  unfold pullPosts
  dsimp only
  by_cases hw : website ≠ ""
  · rw [if_pos hw]
    by_cases h3 : 3 ≤ (feedLoopAux feeds []).length
    · rw [if_pos h3]
      exact feedLoopAux_len feeds [] (by decide)
    · rw [if_neg h3]
      by_cases hq : (if company ≠ "" then company else domain) = ""
      · rw [if_pos hq]
        exact List.length_take_le 3 _
      · rw [if_neg hq]
        exact List.length_take_le 3 _
  · rw [if_neg hw]
    rw [if_neg (by decide : ¬(3 ≤ ([] : List PostItem).length))]
    by_cases hq : (if company ≠ "" then company else domain) = ""
    · rw [if_pos hq]
      exact List.length_take_le 3 _
    · rw [if_neg hq]
      exact List.length_take_le 3 _

theorem sanitizePosts_len (posts : List PostOut) :
    1 ≤ (sanitizePosts posts).length ∧ (sanitizePosts posts).length ≤ 5 := by
  unfold sanitizePosts
  dsimp only
  by_cases h : (dedupByLink (sanitizePostsClean posts) []).take 5 = []
  · rw [if_pos h]
    exact ⟨by decide, by decide⟩
  · rw [if_neg h]
    exact ⟨List.length_pos.mpr h, List.length_take_le 5 _⟩

theorem pullPosts_nil {feeds : List (List RawFeedItem)}
    {news web : String → List RawFeedItem} {company domain website : String}
    (hf : ∀ es ∈ feeds, ∀ it ∈ es, pyStrip it.title = "" ∨ pyStrip it.link = "")
    (hn : ∀ gl, ∀ it ∈ news gl, pyStrip it.title = "" ∨ pyStrip it.link = "")
    (hw : ∀ gl, ∀ it ∈ web gl, pyStrip it.title = "" ∨ pyStrip it.link = "") :
    pullPosts feeds news web company domain website = [] := by
  have h0 : feedLoopAux feeds [] = [] :=
    feedLoopAux_nil feeds (fun es hes => fetchFeedItems_nil (hf es hes))
  have hnall : ∀ gl, newsPassItems (news gl) = [] := fun gl => newsPassItems_nil (hn gl)
  have hwall : ∀ gl, webPassItems (web gl) = [] := fun gl => webPassItems_nil (hw gl)
  unfold pullPosts
  dsimp only
  rw [h0]
  simp only [hnall, hwall, List.nil_append, ite_self, List.take_nil, List.length_nil]

theorem getRecentPosts_placeholder {feeds : List (List RawFeedItem)}
    {news web : String → List RawFeedItem} {company domain website : String}
    (hp : pullPosts feeds news web company domain website = []) :
    getRecentPosts feeds news web company domain website =
      [⟨none, "No Posts to Show", "", none, none, true⟩] := by
  unfold getRecentPosts
  dsimp only
  rw [hp]
  rfl

/-! ## C7: post list capping and the placeholder fallback -/

/-- C7: the extractor's post list is capped at 3; the sanitized profile list
always has between 1 and 5 entries; when the feed/news cascade yields no
item with both a non-empty stripped title and a non-empty stripped link the
profile list is exactly the single placeholder entry (title
"No Posts to Show", placeholder true); and `build_profile` stores exactly
the sanitizer's output. -/
theorem posts_capped_placeholder :
    (∀ (feeds : List (List RawFeedItem)) (news web : String → List RawFeedItem)
        (company domain website : String),
      (pullPosts feeds news web company domain website).length ≤ 3) ∧
    (∀ posts : List PostOut,
      1 ≤ (sanitizePosts posts).length ∧ (sanitizePosts posts).length ≤ 5) ∧
    (∀ (feeds : List (List RawFeedItem)) (news web : String → List RawFeedItem)
        (company domain website : String),
      (∀ es ∈ feeds, ∀ it ∈ es, pyStrip it.title = "" ∨ pyStrip it.link = "") →
      (∀ gl, ∀ it ∈ news gl, pyStrip it.title = "" ∨ pyStrip it.link = "") →
      (∀ gl, ∀ it ∈ web gl, pyStrip it.title = "" ∨ pyStrip it.link = "") →
      sanitizePosts (getRecentPosts feeds news web company domain website) =
        [placeholderPost]) ∧
    (∀ (company domain : String) (collab : Collaborators) (ps : List PostOut)
        (now : String) (lat : Int),
      (buildProfile company domain { collab with posts := some ps } now lat).recentPosts =
        sanitizePosts ps) := by
  refine ⟨pullPosts_len, sanitizePosts_len, ?_, ?_⟩
  · intro feeds news web company domain website hf hn hw
    rw [getRecentPosts_placeholder (pullPosts_nil hf hn hw)]
    rfl
  · intro company domain collab ps now lat
    rfl

/-- Witness for C7 at a concrete all-invalid cascade: a feed entry with a
blank title and a news result with a blank link both get dropped, so the
profile's list is the single placeholder. -/
theorem posts_capped_placeholder_witness :
    sanitizePosts (getRecentPosts [[⟨" ", "x", ""⟩]] (fun _ => [⟨"t", " ", ""⟩])
      (fun _ => []) "Acme" "acme.com" "https://acme.com") = [placeholderPost] :=
  posts_capped_placeholder.2.2.1 [[⟨" ", "x", ""⟩]] (fun _ => [⟨"t", " ", ""⟩])
    (fun _ => []) "Acme" "acme.com" "https://acme.com"
    (by decide)
    (fun gl => (by decide : ∀ it ∈ [(⟨"t", " ", ""⟩ : RawFeedItem)],
      pyStrip it.title = "" ∨ pyStrip it.link = ""))
    (fun gl => (by decide : ∀ it ∈ ([] : List RawFeedItem),
      pyStrip it.title = "" ∨ pyStrip it.link = ""))

/-! ## C1 support: shape of each sanitized field -/

theorem ensureWebsite_ne_empty {d : String} {w : Option String} {x : String}
    (h : ensureWebsite d w = some x) : x ≠ "" := by
  unfold ensureWebsite at h
  dsimp only at h
  by_cases hw : pyStrip (w.getD "") ≠ ""
  · rw [if_pos hw, Option.some.injEq] at h
    rw [← h]
    exact hw
  · rw [if_neg hw] at h
    by_cases hd : pyLStripChars ['.'] (pyStrip d) = ""
    · rw [if_pos hd] at h
      cases h
    · rw [if_neg hd] at h
      by_cases hh : ¬ pyStartsWith "http://" (pyLStripChars ['.'] (pyStrip d)) = true ∧
          ¬ pyStartsWith "https://" (pyLStripChars ['.'] (pyStrip d)) = true
      · rw [if_pos hh, Option.some.injEq] at h
        rw [← h]
        exact https_append_ne_empty _
      · rw [if_neg hh, Option.some.injEq] at h
        rw [← h]
        exact hd

theorem mem_dedupFirst {α : Type} [DecidableEq α] :
    ∀ (l seen : List α) (x : α), x ∈ dedupFirst l seen → x ∈ l := by
  intro l
  induction l with
  | nil =>
      intro seen x h
      simp [dedupFirst] at h
  | cons a as ih =>
      intro seen x h
      unfold dedupFirst at h
      by_cases hc : List.contains seen a = true
      · rw [if_pos hc] at h
        exact List.mem_cons_of_mem a (ih _ x h)
      · rw [if_neg hc] at h
        rcases List.mem_cons.mp h with rfl | h2
        · exact List.mem_cons_self _ _
        · exact List.mem_cons_of_mem a (ih _ x h2)

theorem mem_dedupByValue :
    ∀ (l : List AddrOut) (seen : List String) (a : AddrOut),
      a ∈ dedupByValue l seen → a ∈ l := by
  intro l
  induction l with
  | nil =>
      intro seen a h
      simp [dedupByValue] at h
  | cons b bs ih =>
      intro seen a h
      unfold dedupByValue at h
      by_cases h1 : b.value = ""
      · rw [if_pos h1] at h
        exact List.mem_cons_of_mem b (ih _ a h)
      · rw [if_neg h1] at h
        by_cases h2 : List.contains seen b.value = true
        · rw [if_pos h2] at h
          exact List.mem_cons_of_mem b (ih _ a h)
        · rw [if_neg h2] at h
          rcases List.mem_cons.mp h with rfl | h3
          · exact List.mem_cons_self _ _
          · exact List.mem_cons_of_mem b (ih _ a h3)

theorem sanitizeContacts_emails_at (c : RawContacts) :
    ∀ e ∈ (sanitizeContacts c).emails, e.data.contains '@' = true := by
  intro e he
  unfold sanitizeContacts at he
  have h2 := mem_dedupFirst _ [] e he
  exact (List.mem_filter.mp h2).2

theorem sanitizeContacts_addresses (c : RawContacts) :
    ∀ a ∈ (sanitizeContacts c).addresses, looksLikeAddress a.value = true := by
  intro a ha
  unfold sanitizeContacts at ha
  have h2 := mem_dedupByValue _ [] a ha
  rw [List.mem_filterMap] at h2
  obtain ⟨r, _, hra⟩ := h2
  dsimp only at hra
  by_cases hv : looksLikeAddress (pyStrip r.value) = true
  · rw [if_pos hv, Option.some.injEq] at hra
    rw [← hra]
    exact hv
  · rw [if_neg hv] at hra
    cases hra

theorem infoEmail_has_at (d : String) : ("info@" ++ d).data.contains '@' = true := by
  have hm : '@' ∈ ("info@" ++ d).data := by
    rw [String.data_append]
    exact List.mem_append.mpr (Or.inl (by decide))
  exact List.elem_eq_true_of_mem hm

theorem sanitizePostsClean_title :
    ∀ (posts : List PostOut) (q : CleanPost), q ∈ sanitizePostsClean posts → q.title ≠ "" := by
  intro posts
  induction posts with
  | nil =>
      intro q hq
      simp [sanitizePostsClean] at hq
  | cons p rest ih =>
      intro q hq
      unfold sanitizePostsClean at hq
      dsimp only at hq
      by_cases hc : pyStrip p.title = "" ∨
          pyStrip (if p.link ≠ "" then p.link else p.url.getD "") = ""
      · rw [if_pos hc] at hq
        by_cases hp : p.placeholder = true
        · rw [if_pos hp] at hq
          rcases List.mem_cons.mp hq with rfl | h2
          · dsimp only
            decide
          · exact ih q h2
        · rw [if_neg hp] at hq
          exact ih q hq
      · rw [if_neg hc] at hq
        rcases List.mem_cons.mp hq with rfl | h2
        · exact (not_or.mp hc).1
        · exact ih q h2

theorem mem_dedupByLink :
    ∀ (l : List CleanPost) (seen : List String) (q : CleanPost),
      q ∈ dedupByLink l seen → q ∈ l := by
  intro l
  induction l with
  | nil =>
      intro seen q h
      simp [dedupByLink] at h
  | cons p rest ih =>
      intro seen q h
      unfold dedupByLink at h
      cases hpl : p.link with
      | none =>
          rw [hpl] at h
          dsimp only at h
          exact List.mem_cons_of_mem p (ih _ q h)
      | some k =>
          rw [hpl] at h
          dsimp only at h
          by_cases h1 : k = ""
          · rw [if_pos h1] at h
            exact List.mem_cons_of_mem p (ih _ q h)
          · rw [if_neg h1] at h
            by_cases h2 : List.contains seen k = true
            · rw [if_pos h2] at h
              exact List.mem_cons_of_mem p (ih _ q h)
            · rw [if_neg h2] at h
              rcases List.mem_cons.mp h with rfl | h3
              · exact List.mem_cons_self _ _
              · exact List.mem_cons_of_mem p (ih _ q h3)

theorem sanitizePosts_titles (posts : List PostOut) :
    ∀ q ∈ sanitizePosts posts, q.title ≠ "" := by
  intro q hq
  unfold sanitizePosts at hq
  dsimp only at hq
  by_cases h : (dedupByLink (sanitizePostsClean posts) []).take 5 = []
  · rw [if_pos h] at hq
    rcases List.mem_singleton.mp hq with rfl
    decide
  · rw [if_neg h] at hq
    have h2 := mem_dedupByLink _ [] q ((List.take_sublist 5 _).subset hq)
    exact sanitizePostsClean_title posts q h2

theorem mem_allowed_of_ruleFind {r : String × List String}
    {p : String × List String → Bool} (h : catRules.find? p = some r) :
    r.1 ∈ allowedCats := by
  have h2 := List.mem_of_find?_eq_some h
  unfold allowedCats
  exact List.mem_append.mpr (Or.inl (List.mem_map.mpr ⟨r, h2, rfl⟩))

theorem other_mem_allowed : "Other" ∈ allowedCats := by decide

theorem localBranch_mem_allowed (localCat : Option String) (useLocal : Bool) :
    (if useLocal then
      match localCat with
      | none => "Other"
      | some s =>
          match catRules.find? (fun r => pyInStr (pyLower r.1) (pyLower s)) with
          | some r => r.1
          | none => "Other"
     else "Other") ∈ allowedCats := by
  by_cases hu : useLocal = true
  · rw [if_pos hu]
    cases localCat with
    | none => exact other_mem_allowed
    | some s =>
        dsimp only
        cases hfind : catRules.find? (fun r => pyInStr (pyLower r.1) (pyLower s)) with
        | some r => exact mem_allowed_of_ruleFind hfind
        | none => exact other_mem_allowed
  · rw [if_neg hu]
    exact other_mem_allowed

theorem categorize_mem_allowed (name domain : String) (links : List (String × String))
    (geminiCat localCat : Option String) (useLocal : Bool) :
    categorize name domain links geminiCat localCat useLocal ∈ allowedCats := by
  unfold categorize
  dsimp only
  cases hfind : catRules.find? (fun r => r.2.any (fun k =>
      pyInStr k (pyLower (String.intercalate " " ([name, domain] ++ links.map Prod.fst))))) with
  | some r => exact mem_allowed_of_ruleFind hfind
  | none =>
      dsimp only
      cases geminiCat with
      | none => exact localBranch_mem_allowed localCat useLocal
      | some ans =>
          dsimp only
          cases htok : firstTokenStripped ans with
          | none => exact localBranch_mem_allowed localCat useLocal
          | some tok =>
              dsimp only
              by_cases hc : allowedCats.contains tok = true
              · rw [if_pos hc]
                exact List.mem_of_elem_eq_true hc
              · rw [if_neg hc]
                exact other_mem_allowed

/-! ## C1: total, structurally complete aggregation -/

set_option maxHeartbeats 1000000 in
/-- C1: for every input pair and every boundary behaviour, including all
collaborators failing, `build_profile` returns a profile whose every field
has its documented shape (totality is the existence of the returned record:
the embedding is a total function, every exception being absorbed by
`_safe_call` at the boundary). -/
theorem buildProfile_wf (company0 domain0 : String) (collab : Collaborators)
    (now : String) (latency : Int) :
    profileWf (buildProfile company0 domain0 collab now latency) := by
  have hcon : (buildProfile company0 domain0 collab now latency).contacts =
      (if normalizeDomain (pyStrip domain0) ≠ "" ∧
          (sanitizeContacts (safeCall collab.contacts ⟨[], [], []⟩)).emails = [] then
        { sanitizeContacts (safeCall collab.contacts ⟨[], [], []⟩) with
          emails := ["info@" ++ normalizeDomain (pyStrip domain0)] }
      else sanitizeContacts (safeCall collab.contacts ⟨[], [], []⟩)) := rfl
  unfold profileWf
  refine ⟨?_, rfl, ?_, ?_, ?_, ?_, ?_, ?_, ?_, ?_, ?_, ?_, ?_⟩
  · intro w hw
    exact ensureWebsite_ne_empty hw
  · intro kv hkv
    have h2 := List.mem_filter.mp hkv
    have h3 := of_decide_eq_true h2.2
    exact ⟨List.mem_of_elem_eq_true h3.1, h3.2⟩
  · intro d hd
    by_cases hdom : normalizeDomain (pyStrip domain0) = ""
    · rw [show (buildProfile company0 domain0 collab now latency).domain =
          (if normalizeDomain (pyStrip domain0) = "" then none
           else some (normalizeDomain (pyStrip domain0))) from rfl, if_pos hdom] at hd
      cases hd
    · rw [hcon]
      by_cases hem : (sanitizeContacts (safeCall collab.contacts ⟨[], [], []⟩)).emails = []
      · rw [if_pos ⟨hdom, hem⟩]
        exact List.cons_ne_nil _ _
      · rw [if_neg (fun hc => hem hc.2)]
        exact hem
  · intro e he
    rw [hcon] at he
    by_cases hc : normalizeDomain (pyStrip domain0) ≠ "" ∧
        (sanitizeContacts (safeCall collab.contacts ⟨[], [], []⟩)).emails = []
    · rw [if_pos hc] at he
      have he2 : e ∈ ["info@" ++ normalizeDomain (pyStrip domain0)] := he
      rcases List.mem_singleton.mp he2 with rfl
      exact infoEmail_has_at _
    · rw [if_neg hc] at he
      exact sanitizeContacts_emails_at _ e he
  · intro a ha
    rw [hcon] at ha
    by_cases hc : normalizeDomain (pyStrip domain0) ≠ "" ∧
        (sanitizeContacts (safeCall collab.contacts ⟨[], [], []⟩)).emails = []
    · rw [if_pos hc] at ha
      exact sanitizeContacts_addresses _ a ha
    · rw [if_neg hc] at ha
      exact sanitizeContacts_addresses _ a ha
  · exact sanitizeExecutives_names _
  · exact sanitizeExecutives_sorted _
  · exact sanitizeExecutives_len _
  · exact (sanitizePosts_len _).1
  · exact (sanitizePosts_len _).2
  · exact sanitizePosts_titles _
  · exact categorize_mem_allowed _ _ _ _ _ _

/-! ## C10 support: generic takeWhile/dropWhile algebra -/

theorem takeWhile_all_eq {α : Type} {q : α → Bool} :
    ∀ (l : List α), (∀ c ∈ l, q c = true) → l.takeWhile q = l := by
  intro l
  induction l with
  | nil => intro _; rfl
  | cons a tl ih =>
      intro h
      rw [List.takeWhile_cons, if_pos (h a (List.mem_cons_self _ _)),
        ih (fun c hc => h c (List.mem_cons_of_mem a hc))]

theorem dropWhile_all_nil {α : Type} {q : α → Bool} :
    ∀ (l : List α), (∀ c ∈ l, q c = true) → l.dropWhile q = [] := by
  intro l
  induction l with
  | nil => intro _; rfl
  | cons a tl ih =>
      intro h
      rw [List.dropWhile_cons, if_pos (h a (List.mem_cons_self _ _)),
        ih (fun c hc => h c (List.mem_cons_of_mem a hc))]

theorem takeWhile_append_all {α : Type} {q : α → Bool} :
    ∀ (l1 l2 : List α), (∀ c ∈ l1, q c = true) →
      (l1 ++ l2).takeWhile q = l1 ++ l2.takeWhile q := by
  intro l1
  induction l1 with
  | nil => intro l2 _; rfl
  | cons a tl ih =>
      intro l2 h
      rw [List.cons_append, List.takeWhile_cons, if_pos (h a (List.mem_cons_self _ _)),
        ih l2 (fun c hc => h c (List.mem_cons_of_mem a hc)), List.cons_append]

theorem drop_takeWhile_len {α : Type} {q : α → Bool} :
    ∀ (l : List α), l.drop (l.takeWhile q).length = l.dropWhile q := by
  intro l
  induction l with
  | nil => rfl
  | cons a tl ih =>
      rw [List.takeWhile_cons, List.dropWhile_cons]
      by_cases h : q a = true
      · rw [if_pos h, if_pos h, List.length_cons, List.drop_succ_cons]
        exact ih
      · rw [if_neg h, if_neg h, List.length_nil, List.drop_zero]

theorem splitAtFirstC_not_mem {c : Char} {l : List Char} (h : ∀ x ∈ l, x ≠ c) :
    splitAtFirstC c l = (l, none) := by
  unfold splitAtFirstC
  rw [takeWhile_all_eq l (fun x hx => decide_eq_true (h x hx)),
    dropWhile_all_nil l (fun x hx => decide_eq_true (h x hx))]

/-! ## C10 support: character-class closures -/

theorem isAsciiAlphaB_lowerChar {c : Char} (h : isAsciiAlphaB c = true) :
    isAsciiAlphaB (lowerChar c) = true := by
  unfold lowerChar
  by_cases hu : 65 ≤ c.toNat ∧ c.toNat ≤ 90
  · rw [if_pos hu]
    unfold isAsciiAlphaB
    rw [toNat_ofNat_lt (c.toNat + 32) (by omega)]
    simp only [Bool.or_eq_true, Bool.and_eq_true, decide_eq_true_eq]
    left
    omega
  · rw [if_neg hu]
    exact h

theorem schemeCharB_lowerChar {c : Char} (h : schemeCharB c = true) :
    schemeCharB (lowerChar c) = true := by
  unfold lowerChar
  by_cases hu : 65 ≤ c.toNat ∧ c.toNat ≤ 90
  · rw [if_pos hu]
    unfold schemeCharB
    rw [toNat_ofNat_lt (c.toNat + 32) (by omega)]
    simp only [Bool.or_eq_true, Bool.and_eq_true, decide_eq_true_eq]
    left; left; left; left; left
    omega
  · rw [if_neg hu]
    exact h

theorem schemeCharB_ne_colon {c : Char} (h : schemeCharB c = true) : c ≠ ':' := by
  intro he
  rw [he] at h
  exact absurd h (by decide)

theorem schemeCharB_not_bad {c : Char} (h : schemeCharB c = true) :
    ¬(c = '\t' ∨ c = '\r' ∨ c = '\n') := by
  intro hc
  rcases hc with hc | hc | hc <;> (rw [hc] at h; exact absurd h (by decide))

/-! ## C10 support: the input cleaner -/

theorem mem_cleanUrlL_not_bad {l : List Char} {c : Char} (h : c ∈ cleanUrlL l) :
    ¬(c = '\t' ∨ c = '\r' ∨ c = '\n') := by
  unfold cleanUrlL at h
  have h2 := (List.mem_filter.mp h).2
  intro hc
  rcases hc with hc | hc | hc <;> (subst hc; exact absurd h2 (by decide))

theorem cleanUrlL_eq_self {l : List Char}
    (h1 : ∀ c, l.head? = some c → 32 < c.toNat)
    (h2 : ∀ c ∈ l, ¬(c = '\t' ∨ c = '\r' ∨ c = '\n')) :
    cleanUrlL l = l := by
  unfold cleanUrlL
  rw [dropWhile_eq_self_of_head (fun c hc => decide_eq_false (Nat.not_le.mpr (h1 c hc)))]
  refine List.filter_eq_self.mpr ?_
  intro c hc
  have h3 := h2 c hc
  push_neg at h3
  simp only [Bool.not_eq_true', Bool.or_eq_false_iff, decide_eq_false_iff_not]
  exact ⟨⟨h3.1, h3.2.1⟩, h3.2.2⟩

/-! ## C10 support: the params splitter keeps a path prefix -/

theorem pySplitParams_fst_pre (p : List Char) : ∃ t, p = (pySplitParams p).1 ++ t := by
  unfold pySplitParams
  dsimp only
  split
  · split
    · exact ⟨[], (List.append_nil p).symm⟩
    · exact ⟨_, (List.take_append_drop _ p).symm⟩
  · split
    · exact ⟨[], (List.append_nil p).symm⟩
    · exact ⟨_, (List.takeWhile_append_dropWhile _ p).symm⟩

/-! ## C10 support: scheme extraction -/

theorem schemeSplit_fst_valid (l : List Char) :
    (schemeSplit l).1 = [] ∨
    ((schemeSplit l).1.all schemeCharB = true ∧
      (∃ c cs, (schemeSplit l).1 = c :: cs ∧ isAsciiAlphaB c = true) ∧
      (schemeSplit l).1.map lowerChar = (schemeSplit l).1) := by
  unfold schemeSplit
  dsimp only
  split
  · exact Or.inl rfl
  · split
    · exact Or.inl rfl
    · rename_i c tl heq
      split
      · rename_i hcond
        dsimp only
        rw [heq] at hcond
        rw [Bool.and_eq_true] at hcond
        right
        refine ⟨?_, ?_, ?_⟩
        · rw [List.all_eq_true]
          intro x hx
          rw [List.mem_map] at hx
          obtain ⟨y, hy, rfl⟩ := hx
          have hy2 : y ∈ c :: tl := heq ▸ hy
          have hall := hcond.2
          rw [List.all_eq_true] at hall
          exact schemeCharB_lowerChar (hall y hy2)
        · rw [heq, List.map_cons]
          exact ⟨lowerChar c, tl.map lowerChar, rfl, isAsciiAlphaB_lowerChar hcond.1⟩
        · rw [List.map_map, lowerChar_comp]
      · exact Or.inl rfl

theorem schemeSplit_snd_subset {l : List Char} {c : Char}
    (h : c ∈ (schemeSplit l).2) : c ∈ l := by
  unfold schemeSplit at h
  dsimp only at h
  split at h
  · exact h
  · split at h
    · exact h
    · split at h
      · exact List.drop_subset _ _ h
      · exact h

theorem schemeSplit_cons_scheme (s rest : List Char) (c : Char) (cs : List Char)
    (hs : s = c :: cs) (halpha : isAsciiAlphaB c = true) (hall : s.all schemeCharB = true)
    (hlow : s.map lowerChar = s) :
    schemeSplit (s ++ ':' :: rest) = (s, rest) := by
  subst hs
  have hnc : ∀ x ∈ c :: cs, x ≠ ':' := by
    intro x hx
    rw [List.all_eq_true] at hall
    exact schemeCharB_ne_colon (hall x hx)
  have hpre : ((c :: cs) ++ ':' :: rest).takeWhile (fun x => decide (x ≠ ':')) = c :: cs := by
    rw [takeWhile_append_all (c :: cs) (':' :: rest) (fun x hx => decide_eq_true (hnc x hx)),
      List.takeWhile_cons, if_neg (by simp)]
    exact List.append_nil _
  have hdrop : ((c :: cs) ++ ':' :: rest).drop ((c :: cs).length + 1) = rest := by
    rw [show (c :: cs) ++ ':' :: rest = ((c :: cs) ++ [':']) ++ rest by simp,
      show (c :: cs).length + 1 = ((c :: cs) ++ [':']).length by simp]
    exact List.drop_left _ _
  unfold schemeSplit
  dsimp only
  rw [hpre]
  rw [if_neg (by simp only [List.length_append, List.length_cons]; omega)]
  dsimp only
  rw [if_pos (by rw [Bool.and_eq_true]; exact ⟨halpha, hall⟩)]
  rw [hlow, hdrop]

theorem schemeSplit_no_scheme_head {l : List Char} {c : Char}
    (h : l.head? = some c) (hna : isAsciiAlphaB c = false) :
    schemeSplit l = ([], l) := by
  unfold schemeSplit
  dsimp only
  split
  · rfl
  · split
    · rfl
    · rename_i c2 tl heq
      have hc2 : c2 = c := by
        cases l with
        | nil => cases h
        | cons a as =>
            rw [List.head?_cons, Option.some.injEq] at h
            subst h
            rw [List.takeWhile_cons] at heq
            by_cases ha : (decide (a ≠ ':')) = true
            · rw [if_pos ha, List.cons.injEq] at heq
              exact heq.1.symm
            · rw [if_neg ha] at heq
              cases heq
      split
      · rename_i hcond
        rw [Bool.and_eq_true] at hcond
        rw [hc2, hna] at hcond
        cases hcond.1
      · rfl

/-! ## C10 support: netloc splitting -/

theorem netlocSplit_some_spec {m n r2 : List Char}
    (h : netlocSplit m = some (n, r2)) :
    (∀ c ∈ n, netlocDelim c = false) ∧ netlocBad n = false ∧
      ((m = '/' :: '/' :: (n ++ r2) ∧ (∀ c, r2.head? = some c → netlocDelim c = true) ∧
        (∀ c ∈ n, c ∈ m) ∧ (∀ c ∈ r2, c ∈ m)) ∨
       (n = [] ∧ r2 = m)) := by
  unfold netlocSplit at h
  split at h
  · rename_i rest
    dsimp only at h
    by_cases hbad : netlocBad (rest.takeWhile (fun c => !netlocDelim c)) = true
    · rw [if_pos hbad] at h
      cases h
    · rw [if_neg hbad] at h
      rw [Option.some.injEq, Prod.mk.injEq] at h
      obtain ⟨hn, hr2⟩ := h
      subst hn
      subst hr2
      have hrest : rest.takeWhile (fun c => !netlocDelim c) ++
          rest.drop (rest.takeWhile (fun c => !netlocDelim c)).length = rest := by
        rw [drop_takeWhile_len]
        exact List.takeWhile_append_dropWhile _ rest
      refine ⟨?_, Bool.eq_false_iff.mpr hbad, Or.inl ⟨?_, ?_, ?_, ?_⟩⟩
      · intro c hc
        have h2 := List.mem_takeWhile_imp hc
        rwa [Bool.not_eq_true'] at h2
      · rw [hrest]
      · intro c hc
        rw [drop_takeWhile_len] at hc
        have h2 := dropWhile_head_not hc
        rwa [Bool.not_eq_false'] at h2
      · intro c hc
        have h2 : c ∈ rest := by
          rw [← hrest]
          exact List.mem_append.mpr (Or.inl hc)
        exact List.mem_cons_of_mem _ (List.mem_cons_of_mem _ h2)
      · intro c hc
        have h2 : c ∈ rest := List.drop_subset _ _ hc
        exact List.mem_cons_of_mem _ (List.mem_cons_of_mem _ h2)
  all_goals
    rw [Option.some.injEq, Prod.mk.injEq] at h
    obtain ⟨hn, hr2⟩ := h
    subst hn
    subst hr2
    exact ⟨fun c hc => absurd hc (List.not_mem_nil c), by decide, Or.inr ⟨rfl, rfl⟩⟩

theorem netlocSplit_reassembled {n u2 : List Char}
    (hnd : ∀ c ∈ n, netlocDelim c = false)
    (hbad : netlocBad n = false)
    (hh : u2 = [] ∨ u2.head? = some '/') :
    netlocSplit ('/' :: '/' :: (n ++ u2)) = some (n, u2) := by
  have ht : (n ++ u2).takeWhile (fun c => !netlocDelim c) = n := by
    rw [takeWhile_append_all n u2 (fun c hc => by rw [Bool.not_eq_true', hnd c hc])]
    rcases hh with rfl | hh
    · rw [List.takeWhile_nil, List.append_nil]
    · cases u2 with
      | nil => rw [List.takeWhile_nil, List.append_nil]
      | cons a as =>
          rw [List.head?_cons, Option.some.injEq] at hh
          subst hh
          rw [List.takeWhile_cons, if_neg (by decide), List.append_nil]
  have hred : netlocSplit ('/' :: '/' :: (n ++ u2)) =
      (if netlocBad ((n ++ u2).takeWhile (fun c => !netlocDelim c)) then none
       else some ((n ++ u2).takeWhile (fun c => !netlocDelim c),
         (n ++ u2).drop ((n ++ u2).takeWhile (fun c => !netlocDelim c)).length)) := rfl
  rw [hred, ht, hbad]
  rw [if_neg Bool.false_ne_true]
  rw [List.drop_left]

/-! ## C10 support: facts established by a successful parse -/

theorem prefix_mem {α : Type} {a b t : List α} {c : α} (h : b = a ++ t) (hc : c ∈ a) :
    c ∈ b := by
  rw [h]
  exact List.mem_append.mpr (Or.inl hc)

theorem mem_takeWhile_subset {α : Type} {q : α → Bool} {l : List α} {c : α}
    (h : c ∈ l.takeWhile q) : c ∈ l := by
  have h2 := List.takeWhile_append_dropWhile q l
  rw [← h2]
  exact List.mem_append.mpr (Or.inl h)

theorem pyUrlparseL_facts {l0 : List Char} {r : UrlParts}
    (h : pyUrlparseL l0 = some r) :
    (r.scheme = [] ∨ (r.scheme.all schemeCharB = true ∧
      (∃ c cs, r.scheme = c :: cs ∧ isAsciiAlphaB c = true) ∧
      r.scheme.map lowerChar = r.scheme)) ∧
    (∀ c ∈ r.netloc, netlocDelim c = false) ∧
    netlocBad r.netloc = false ∧
    (∀ c ∈ r.path, c ≠ '?' ∧ c ≠ '#') ∧
    (∀ c ∈ r.netloc, ¬(c = '\t' ∨ c = '\r' ∨ c = '\n')) ∧
    (∀ c ∈ r.path, ¬(c = '\t' ∨ c = '\r' ∨ c = '\n')) := by
  unfold pyUrlparseL at h
  dsimp only at h
  cases hns : netlocSplit (schemeSplit (cleanUrlL l0)).2 with
  | none =>
      rw [hns] at h
      cases h
  | some pr =>
      obtain ⟨n2, r2⟩ := pr
      rw [hns] at h
      dsimp only at h
      rw [Option.some.injEq] at h
      subst h
      dsimp only
      obtain ⟨hnd, hbad, hshape⟩ := netlocSplit_some_spec hns
      have hr2sub : ∀ c ∈ r2, c ∈ cleanUrlL l0 := by
        intro c hc
        rcases hshape with ⟨_, _, _, hsub⟩ | ⟨_, hr2⟩
        · exact schemeSplit_snd_subset (hsub c hc)
        · exact schemeSplit_snd_subset (hr2 ▸ hc)
      have hnsub : ∀ c ∈ n2, c ∈ cleanUrlL l0 := by
        intro c hc
        rcases hshape with ⟨_, _, hsub, _⟩ | ⟨hn, _⟩
        · exact schemeSplit_snd_subset (hsub c hc)
        · rw [hn] at hc
          cases hc
      have hpq : ∀ c ∈ (splitAtFirstC '?' (splitAtFirstC '#' r2).1).1,
          (c ≠ '?' ∧ c ≠ '#') ∧ ¬(c = '\t' ∨ c = '\r' ∨ c = '\n') := by
        intro c hc
        have hc0 : c ∈ ((splitAtFirstC '#' r2).1).takeWhile (fun x => decide (x ≠ '?')) := hc
        have hq1 := List.mem_takeWhile_imp hc0
        have hq2 : c ≠ '?' := of_decide_eq_true hq1
        have hc1 : c ∈ (splitAtFirstC '#' r2).1 := mem_takeWhile_subset hc0
        have hc1t : c ∈ r2.takeWhile (fun x => decide (x ≠ '#')) := hc1
        have hf1 := List.mem_takeWhile_imp hc1t
        have hf2 : c ≠ '#' := of_decide_eq_true hf1
        have hc2 : c ∈ r2 := mem_takeWhile_subset hc1t
        exact ⟨⟨hq2, hf2⟩, mem_cleanUrlL_not_bad (hr2sub c hc2)⟩
      refine ⟨schemeSplit_fst_valid _, hnd, hbad, ?_,
        fun c hc => mem_cleanUrlL_not_bad (hnsub c hc), ?_⟩
      · intro c hc
        split at hc
        · obtain ⟨t, ht⟩ :=
            pySplitParams_fst_pre ((splitAtFirstC '?' (splitAtFirstC '#' r2).1).1)
          exact (hpq c (prefix_mem ht hc)).1
        · exact (hpq c hc).1
      · intro c hc
        split at hc
        · obtain ⟨t, ht⟩ :=
            pySplitParams_fst_pre ((splitAtFirstC '?' (splitAtFirstC '#' r2).1).1)
          exact (hpq c (prefix_mem ht hc)).2
        · exact (hpq c hc).2

/-! ## C10 support: the trailing-slash stripper -/

theorem rstripSlashL_isPre (p : List Char) : ∃ t, p = rstripSlashL p ++ t := by
  unfold rstripSlashL
  by_cases h : p = ['/']
  · rw [if_pos h]
    exact ⟨[], by rw [h, List.append_nil]⟩
  · rw [if_neg h]
    exact stripTrailL_isPre _ p

theorem mem_rstripSlashL {x : List Char} {c : Char} (h : c ∈ rstripSlashL x) : c ∈ x := by
  obtain ⟨t, ht⟩ := rstripSlashL_isPre x
  rw [ht]
  exact List.mem_append.mpr (Or.inl h)

theorem stripTrail_eq_self_of_last {q : Char → Bool} {l : List Char}
    (h : ∀ c, l.getLast? = some c → q c = false) : stripTrailL q l = l := by
  unfold stripTrailL
  rw [dropWhile_eq_self_of_head (fun c hc => h c (by rwa [List.head?_reverse] at hc))]
  exact List.reverse_reverse l

theorem rstripSlashL_no_trailing (p : List Char) :
    rstripSlashL p = ['/'] ∨ ∀ c, (rstripSlashL p).getLast? = some c → c ≠ '/' := by
  unfold rstripSlashL
  by_cases h : p = ['/']
  · rw [if_pos h]
    exact Or.inl rfl
  · rw [if_neg h]
    right
    intro c hc he
    have h2 := getLast?_stripTrailL
      (show (stripTrailL (fun x => decide (x = '/')) p).getLast? = some c from hc)
    rw [he] at h2
    exact absurd h2 (by decide)

theorem rstripSlashL_eq_self {l : List Char}
    (h : ∀ c, l.getLast? = some c → c ≠ '/') : rstripSlashL l = l := by
  unfold rstripSlashL
  by_cases hl : l = ['/']
  · exact absurd rfl (h '/' (by rw [hl]; rfl))
  · rw [if_neg hl]
    exact stripTrail_eq_self_of_last (fun c hc => decide_eq_false (h c hc))

theorem rstripSlashL_idem (p : List Char) :
    rstripSlashL (rstripSlashL p) = rstripSlashL p := by
  rcases rstripSlashL_no_trailing p with h | h
  · rw [h]
    rfl
  · exact rstripSlashL_eq_self h

/-! ## C10 support: reassembly and the reparse of a canonical output -/

theorem unsplit_netloc_first (s n p : List Char) (hn : n ≠ []) :
    pyUrlunsplitL s n p [] [] =
      (if s ≠ [] then
        s ++ ':' :: ('/' :: '/' ::
          (n ++ (if p ≠ [] ∧ p.head? ≠ some '/' then '/' :: p else p)))
       else '/' :: '/' :: (n ++ (if p ≠ [] ∧ p.head? ≠ some '/' then '/' :: p else p))) := by
  unfold pyUrlunsplitL
  dsimp only
  rw [if_pos (Or.inl hn)]
  rw [if_neg (show ¬(([] : List Char) ≠ []) from fun hc => hc rfl)]
  rw [if_neg (show ¬(([] : List Char) ≠ []) from fun hc => hc rfl)]

theorem unsplit_netloc_shape (s n u2 : List Char) (hn : n ≠ [])
    (hh : u2 = [] ∨ u2.head? = some '/') :
    pyUrlunsplitL s n u2 [] [] =
      (if s ≠ [] then s ++ ':' :: ('/' :: '/' :: (n ++ u2))
       else '/' :: '/' :: (n ++ u2)) := by
  rw [unsplit_netloc_first s n u2 hn]
  have hu2 : (if u2 ≠ [] ∧ u2.head? ≠ some '/' then '/' :: u2 else u2) = u2 := by
    rcases hh with rfl | hh
    · rw [if_neg (show ¬(([] : List Char) ≠ [] ∧ ([] : List Char).head? ≠ some '/') from
        fun hc => hc.1 rfl)]
    · rw [if_neg (show ¬(u2 ≠ [] ∧ u2.head? ≠ some '/') from fun hc => hc.2 hh)]
  rw [hu2]

theorem mem_pyUrlunsplitL {s n u : List Char} {c : Char}
    (h : c ∈ pyUrlunsplitL s n u [] []) :
    c ∈ s ∨ c ∈ n ∨ c ∈ u ∨ c = ':' ∨ c = '/' := by
  unfold pyUrlunsplitL at h
  dsimp only at h
  rw [if_neg (show ¬(([] : List Char) ≠ []) from fun hc => hc rfl)] at h
  rw [if_neg (show ¬(([] : List Char) ≠ []) from fun hc => hc rfl)] at h
  split at h
  · rcases List.mem_append.mp h with h | h
    · exact Or.inl h
    · rcases List.mem_cons.mp h with rfl | h
      · exact Or.inr (Or.inr (Or.inr (Or.inl rfl)))
      · split at h
        · rcases List.mem_cons.mp h with rfl | h
          · exact Or.inr (Or.inr (Or.inr (Or.inr rfl)))
          · rcases List.mem_cons.mp h with rfl | h
            · exact Or.inr (Or.inr (Or.inr (Or.inr rfl)))
            · rcases List.mem_append.mp h with h | h
              · exact Or.inr (Or.inl h)
              · split at h
                · rcases List.mem_cons.mp h with rfl | h
                  · exact Or.inr (Or.inr (Or.inr (Or.inr rfl)))
                  · exact Or.inr (Or.inr (Or.inl h))
                · exact Or.inr (Or.inr (Or.inl h))
        · exact Or.inr (Or.inr (Or.inl h))
  · split at h
    · rcases List.mem_cons.mp h with rfl | h
      · exact Or.inr (Or.inr (Or.inr (Or.inr rfl)))
      · rcases List.mem_cons.mp h with rfl | h
        · exact Or.inr (Or.inr (Or.inr (Or.inr rfl)))
        · rcases List.mem_append.mp h with h | h
          · exact Or.inr (Or.inl h)
          · split at h
            · rcases List.mem_cons.mp h with rfl | h
              · exact Or.inr (Or.inr (Or.inr (Or.inr rfl)))
              · exact Or.inr (Or.inr (Or.inl h))
            · exact Or.inr (Or.inr (Or.inl h))
    · exact Or.inr (Or.inr (Or.inl h))

theorem reparse_out {s n u2 : List Char}
    (hsv : s = [] ∨ (s.all schemeCharB = true ∧
      (∃ c cs, s = c :: cs ∧ isAsciiAlphaB c = true) ∧ s.map lowerChar = s))
    (hnd : ∀ c ∈ n, netlocDelim c = false)
    (hbad : netlocBad n = false)
    (hh : u2 = [] ∨ u2.head? = some '/')
    (hncl : ∀ c ∈ n, ¬(c = '\t' ∨ c = '\r' ∨ c = '\n'))
    (hu2cl : ∀ c ∈ u2, ¬(c = '\t' ∨ c = '\r' ∨ c = '\n'))
    (hq : ∀ c ∈ u2, c ≠ '?') (hf : ∀ c ∈ u2, c ≠ '#')
    (hsc : u2.contains ';' = false) :
    pyUrlparseL (if s ≠ [] then s ++ ':' :: ('/' :: '/' :: (n ++ u2))
      else '/' :: '/' :: (n ++ u2)) = some ⟨s, n, u2, [], [], []⟩ := by
  have hmcl : ∀ c ∈ '/' :: '/' :: (n ++ u2), ¬(c = '\t' ∨ c = '\r' ∨ c = '\n') := by
    intro c hc
    rcases List.mem_cons.mp hc with rfl | hc
    · exact (by decide)
    · rcases List.mem_cons.mp hc with rfl | hc
      · exact (by decide)
      · rcases List.mem_append.mp hc with hc | hc
        · exact hncl c hc
        · exact hu2cl c hc
  rcases hsv with rfl | ⟨hall, ⟨c0, cs0, hs0, halpha⟩, hlow⟩
  · rw [if_neg (show ¬(([] : List Char) ≠ []) from fun hc => hc rfl)]
    have hclean : cleanUrlL ('/' :: '/' :: (n ++ u2)) = '/' :: '/' :: (n ++ u2) :=
      cleanUrlL_eq_self
        (fun c hc => by
          rw [List.head?_cons, Option.some.injEq] at hc
          rw [← hc]
          decide)
        hmcl
    unfold pyUrlparseL
    dsimp only
    rw [hclean]
    rw [schemeSplit_no_scheme_head
      (show ('/' :: '/' :: (n ++ u2)).head? = some '/' from rfl) (by decide)]
    dsimp only
    rw [netlocSplit_reassembled hnd hbad hh]
    dsimp only
    rw [splitAtFirstC_not_mem hf]
    dsimp only
    rw [splitAtFirstC_not_mem hq]
    dsimp only
    rw [if_neg (fun hc => Bool.false_ne_true (hsc ▸ hc.2))]
    rfl
  · rw [if_pos (show s ≠ [] from by rw [hs0]; exact List.cons_ne_nil c0 cs0)]
    have hscl : ∀ c ∈ s, ¬(c = '\t' ∨ c = '\r' ∨ c = '\n') := by
      intro c hc
      rw [List.all_eq_true] at hall
      exact schemeCharB_not_bad (hall c hc)
    have hclean : cleanUrlL (s ++ ':' :: ('/' :: '/' :: (n ++ u2))) =
        s ++ ':' :: ('/' :: '/' :: (n ++ u2)) := by
      apply cleanUrlL_eq_self
      · intro c hc
        rw [hs0, List.cons_append, List.head?_cons, Option.some.injEq] at hc
        rw [← hc]
        have halpha2 := halpha
        unfold isAsciiAlphaB at halpha2
        simp only [Bool.or_eq_true, Bool.and_eq_true, decide_eq_true_eq] at halpha2
        omega
      · intro c hc
        rcases List.mem_append.mp hc with hc | hc
        · exact hscl c hc
        · rcases List.mem_cons.mp hc with rfl | hc
          · exact (by decide)
          · exact hmcl c hc
    unfold pyUrlparseL
    dsimp only
    rw [hclean]
    rw [schemeSplit_cons_scheme s ('/' :: '/' :: (n ++ u2)) c0 cs0 hs0 halpha hall hlow]
    dsimp only
    rw [netlocSplit_reassembled hnd hbad hh]
    dsimp only
    rw [splitAtFirstC_not_mem hf]
    dsimp only
    rw [splitAtFirstC_not_mem hq]
    dsimp only
    rw [if_neg (fun hc => Bool.false_ne_true (hsc ▸ hc.2))]
    rfl

/-! ## C10: canonicalization is not idempotent in general; amended contract -/

/-- C10 counterexamples: a trailing-slash URL whose shortened path exposes a
`;` to the second parse's params split (`http://h/a;x/` canonicalizes to
`http://h/a;x`, which canonicalizes further to `http://h/a`), and an
empty-netloc URL whose stripped path begins with `//` so the second parse
absorbs one segment into the netloc (`/////x` canonicalizes to `///x`,
which canonicalizes further to `/x`). -/
theorem canonicalize_not_idempotent :
    canonicalize (canonicalize "http://h/a;x/") ≠ canonicalize "http://h/a;x/" ∧
    canonicalize (canonicalize "/////x") ≠ canonicalize "/////x" := by
  constructor <;> decide

/-- C10 (amended): `canonicalize` is idempotent on every URL that parses
with a non-empty netloc and a `;`-free path; the result of any successful
canonicalization contains no `?` and no `#` (so no query and no fragment
survive); and the stripped path keeps no trailing slash except as the bare
root path. -/
theorem canonicalize_amended :
    (∀ (u : String) (r : UrlParts), pyUrlparseL u.data = some r →
      r.netloc ≠ [] → r.path.contains ';' = false →
      canonicalize (canonicalize u) = canonicalize u) ∧
    (∀ (u : String) (r : UrlParts), pyUrlparseL u.data = some r →
      '?' ∉ (canonicalize u).data ∧ '#' ∉ (canonicalize u).data) ∧
    (∀ p : List Char, rstripSlashL p = ['/'] ∨
      ∀ c, (rstripSlashL p).getLast? = some c → c ≠ '/') := by
  refine ⟨?_, ?_, rstripSlashL_no_trailing⟩
  · intro u r hparse hn hsemi
    obtain ⟨hsv, hnd, hbad, hpqf, hncl, hpcl⟩ := pyUrlparseL_facts hparse
    have hpmem : ∀ c ∈ rstripSlashL r.path, c ∈ r.path := fun _ hc => mem_rstripSlashL hc
    have hsemimem : ∀ c ∈ rstripSlashL r.path, c ≠ ';' := by
      intro c hc he
      subst he
      have h3 : r.path.contains ';' = true :=
        List.elem_eq_true_of_mem (hpmem _ hc)
      rw [hsemi] at h3
      exact absurd h3 Bool.false_ne_true
    by_cases hcond : rstripSlashL r.path ≠ [] ∧ (rstripSlashL r.path).head? ≠ some '/'
    · have hh2 : ('/' :: rstripSlashL r.path) = [] ∨
          ('/' :: rstripSlashL r.path).head? = some '/' := Or.inr rfl
      have hu2cl : ∀ c ∈ '/' :: rstripSlashL r.path,
          ¬(c = '\t' ∨ c = '\r' ∨ c = '\n') := by
        intro c hc
        rcases List.mem_cons.mp hc with rfl | hc
        · exact (by decide)
        · exact hpcl c (hpmem c hc)
      have hq2 : ∀ c ∈ '/' :: rstripSlashL r.path, c ≠ '?' := by
        intro c hc
        rcases List.mem_cons.mp hc with rfl | hc
        · exact (by decide)
        · exact (hpqf c (hpmem c hc)).1
      have hf2 : ∀ c ∈ '/' :: rstripSlashL r.path, c ≠ '#' := by
        intro c hc
        rcases List.mem_cons.mp hc with rfl | hc
        · exact (by decide)
        · exact (hpqf c (hpmem c hc)).2
      have hsc2 : ('/' :: rstripSlashL r.path).contains ';' = false := by
        rw [Bool.eq_false_iff]
        intro ht
        rcases List.mem_cons.mp (List.mem_of_elem_eq_true ht) with h | h
        · exact absurd h (by decide)
        · exact hsemimem ';' h rfl
      have hrep := reparse_out hsv hnd hbad hh2 hncl hu2cl hq2 hf2 hsc2
      have hlast : ∀ c, ('/' :: rstripSlashL r.path).getLast? = some c → c ≠ '/' := by
        intro c hc
        have hgl : ('/' :: rstripSlashL r.path).getLast? =
            (rstripSlashL r.path).getLast? := by
          rw [show ('/' :: rstripSlashL r.path) = ['/'] ++ rstripSlashL r.path from rfl]
          exact List.getLast?_append_of_ne_nil _ hcond.1
        rw [hgl] at hc
        rcases rstripSlashL_no_trailing r.path with h | h
        · exact absurd (show (rstripSlashL r.path).head? = some '/' from by rw [h]; rfl)
            hcond.2
        · exact h c hc
      have hstrip : rstripSlashL ('/' :: rstripSlashL r.path) =
          '/' :: rstripSlashL r.path := rstripSlashL_eq_self hlast
      set out := (if r.scheme ≠ [] then
          r.scheme ++ ':' :: ('/' :: '/' :: (r.netloc ++ ('/' :: rstripSlashL r.path)))
        else '/' :: '/' :: (r.netloc ++ ('/' :: rstripSlashL r.path))) with hout
      have hA : canonicalize u = ⟨out⟩ := by
        unfold canonicalize
        rw [hparse]
        dsimp only
        congr 1
        unfold pyUrlunparseL
        dsimp only
        rw [if_neg (show ¬(([] : List Char) ≠ []) from fun hc => hc rfl)]
        rw [unsplit_netloc_first r.scheme r.netloc (rstripSlashL r.path) hn]
        rw [if_pos hcond, hout]
      rw [hA]
      unfold canonicalize
      rw [show (⟨out⟩ : String).data = out from rfl]
      rw [hrep]
      dsimp only
      congr 1
      unfold pyUrlunparseL
      dsimp only
      rw [if_neg (show ¬(([] : List Char) ≠ []) from fun hc => hc rfl)]
      rw [hstrip]
      rw [unsplit_netloc_shape r.scheme r.netloc ('/' :: rstripSlashL r.path) hn hh2]
    · have hh2 : rstripSlashL r.path = [] ∨ (rstripSlashL r.path).head? = some '/' := by
        push_neg at hcond
        by_cases hnil : rstripSlashL r.path = []
        · exact Or.inl hnil
        · exact Or.inr (hcond hnil)
      have hu2cl : ∀ c ∈ rstripSlashL r.path, ¬(c = '\t' ∨ c = '\r' ∨ c = '\n') :=
        fun c hc => hpcl c (hpmem c hc)
      have hq2 : ∀ c ∈ rstripSlashL r.path, c ≠ '?' :=
        fun c hc => (hpqf c (hpmem c hc)).1
      have hf2 : ∀ c ∈ rstripSlashL r.path, c ≠ '#' :=
        fun c hc => (hpqf c (hpmem c hc)).2
      have hsc2 : (rstripSlashL r.path).contains ';' = false := by
        rw [Bool.eq_false_iff]
        intro ht
        exact hsemimem ';' (List.mem_of_elem_eq_true ht) rfl
      have hrep := reparse_out hsv hnd hbad hh2 hncl hu2cl hq2 hf2 hsc2
      have hstrip : rstripSlashL (rstripSlashL r.path) = rstripSlashL r.path :=
        rstripSlashL_idem r.path
      set out := (if r.scheme ≠ [] then
          r.scheme ++ ':' :: ('/' :: '/' :: (r.netloc ++ rstripSlashL r.path))
        else '/' :: '/' :: (r.netloc ++ rstripSlashL r.path)) with hout
      have hA : canonicalize u = ⟨out⟩ := by
        unfold canonicalize
        rw [hparse]
        dsimp only
        congr 1
        unfold pyUrlunparseL
        dsimp only
        rw [if_neg (show ¬(([] : List Char) ≠ []) from fun hc => hc rfl)]
        rw [unsplit_netloc_shape r.scheme r.netloc (rstripSlashL r.path) hn hh2]
      rw [hA]
      unfold canonicalize
      rw [show (⟨out⟩ : String).data = out from rfl]
      rw [hrep]
      dsimp only
      congr 1
      unfold pyUrlunparseL
      dsimp only
      rw [if_neg (show ¬(([] : List Char) ≠ []) from fun hc => hc rfl)]
      rw [hstrip]
      rw [unsplit_netloc_shape r.scheme r.netloc (rstripSlashL r.path) hn hh2]
  · intro u r hparse
    obtain ⟨hsv, hnd, _, hpqf, _, _⟩ := pyUrlparseL_facts hparse
    have hA : (canonicalize u).data =
        pyUrlunsplitL r.scheme r.netloc (rstripSlashL r.path) [] [] := by
      unfold canonicalize
      rw [hparse]
      dsimp only
      show pyUrlunparseL ⟨r.scheme, r.netloc, rstripSlashL r.path, [], [], []⟩ =
        pyUrlunsplitL r.scheme r.netloc (rstripSlashL r.path) [] []
      unfold pyUrlunparseL
      dsimp only
      rw [if_neg (show ¬(([] : List Char) ≠ []) from fun hc => hc rfl)]
    constructor
    · intro hmem
      rw [hA] at hmem
      rcases mem_pyUrlunsplitL hmem with h | h | h | h | h
      · rcases hsv with hsnil | ⟨hall, _, _⟩
        · rw [hsnil] at h
          cases h
        · rw [List.all_eq_true] at hall
          exact absurd (hall _ h) (by decide)
      · exact absurd (hnd _ h) (by decide)
      · exact (hpqf _ (mem_rstripSlashL h)).1 rfl
      · exact absurd h (by decide)
      · exact absurd h (by decide)
    · intro hmem
      rw [hA] at hmem
      rcases mem_pyUrlunsplitL hmem with h | h | h | h | h
      · rcases hsv with hsnil | ⟨hall, _, _⟩
        · rw [hsnil] at h
          cases h
        · rw [List.all_eq_true] at hall
          exact absurd (hall _ h) (by decide)
      · exact absurd (hnd _ h) (by decide)
      · exact (hpqf _ (mem_rstripSlashL h)).2 rfl
      · exact absurd h (by decide)
      · exact absurd h (by decide)

/-- Witness for C10 at a concrete https URL with a host and a
trailing-slash path. -/
theorem canonicalize_amended_witness :
    canonicalize (canonicalize "https://x.com/a/") = canonicalize "https://x.com/a/" :=
  canonicalize_amended.1 "https://x.com/a/"
    ⟨"https".data, "x.com".data, "/a/".data, [], [], []⟩
    (by decide) (by decide) (by decide)

end Findelix
